import Mathlib

/-!
Verification of the diff2 sequence-matching engine.

The definitions below are a shallow embedding of the Go sources
(diff2.go, structs.go, and the keyed variant): sequences are Lists,
the element-index map is an association list built exactly as the Go
chainBseq loop builds its map, and the matching engine (longestMatch,
the iterative worklist in matches, the normalizer, spansForMatches and
the block builder) is translated function by function.  Go int indexes
are modelled as Nat; every place where Nat subtraction could differ
from Go int subtraction is noted and covered by a bounds invariant.
-/

set_option maxHeartbeats 1000000
set_option maxRecDepth 8000
set_option linter.unusedVariables false

namespace Diff2

/-- Tag of a span or block (structs.go); Equal is the zero value. -/
inductive Tag where
  | Equal
  | Insert
  | Delete
  | Replace
deriving DecidableEq, Repr

/-- Numeric code of a Tag: the Go Tag is a uint8 built with iota. -/
def Tag.code : Tag → Nat
  | .Equal => 0
  | .Insert => 1
  | .Delete => 2
  | .Replace => 3

/-- Tag.String from structs.go, modelled on the underlying numeric value:
the switch returns a fixed symbol for the four constants and panics
(modelled as none) for every other numeric value. -/
def tagStringCode (n : Nat) : Option String :=
  if n = 0 then some "="
  else if n = 1 then some "+"
  else if n = 2 then some "-"
  else if n = 3 then some "%"
  else none

/-- A rectangular search window over both sequences (structs.go). -/
structure Quad where
  Astart : Nat
  Aend : Nat
  Bstart : Nat
  Bend : Nat
deriving DecidableEq, Repr

/-- One aligned run (structs.go). -/
structure Match where
  astart : Nat
  bstart : Nat
  length : Nat
deriving DecidableEq, Repr

/-- A tagged window (structs.go; the Go Span embeds a Quad, whose fields
are promoted — they are flattened here). -/
structure Span where
  tag : Tag
  Astart : Nat
  Aend : Nat
  Bstart : Nat
  Bend : Nat
deriving DecidableEq, Repr

/-- Materialized items for a span (structs.go, Block). -/
structure Block (α : Type) where
  tag : Tag
  Aitems : List α
  Bitems : List α
deriving DecidableEq, Repr

/-- Materialized items for a span, keyed variant (structs.go, BlockKeyFn). -/
structure BlockKeyFn (α : Type) where
  tag : Tag
  Aitems : List α
  Bitems : List α
deriving DecidableEq, Repr

/-! ### The element-index map

The Go map from element identity to the ascending list of its positions
in B is modelled as an association list; aupdate is one step of the
chainBseq loop (append the position to the entry, creating it if absent),
alookup is Go map lookup. -/

/-- Append position i to the entry of key k, creating the entry if absent. -/
def aupdate [DecidableEq κ] (m : List (κ × List Nat)) (k : κ) (i : Nat) :
    List (κ × List Nat) :=
  match m with
  | [] => [(k, [i])]
  | (k', l) :: rest =>
    if k' = k then (k', l ++ [i]) :: rest else (k', l) :: aupdate rest k i

/-- Go map lookup on the association list. -/
def alookup [DecidableEq κ] (m : List (κ × List Nat)) (k : κ) :
    Option (List Nat) :=
  match m with
  | [] => none
  | (k', l) :: rest => if k' = k then some l else alookup rest k

/-- The chainBseq building loop: for i, x := range b, append i to the
entry of (key x); i is the position of the first element of the remaining
list. -/
def chainAux [DecidableEq κ] (key : α → κ) (m : List (κ × List Nat))
    (i : Nat) : List α → List (κ × List Nat)
  | [] => m
  | x :: rest => chainAux key (aupdate m (key x) i) (i + 1) rest

/-- Diff.chainBseq (diff2.go): build the map, then, when len(b) is at
least 200, delete every identity occurring more than 1 + len(b)/100
times. -/
def chainBseq [DecidableEq α] (b : List α) : List (α × List Nat) :=
  let m := chainAux id [] 0 b
  if 200 ≤ b.length then
    m.filter (fun e => e.2.length ≤ 1 + b.length / 100)
  else m

/-- The positions of x in b, in ascending order, positions offset by i
(used to characterize the map built by chainAux). -/
def keyIndexesFrom [DecidableEq κ] (key : α → κ) (i : Nat) (l : List α)
    (k : κ) : List Nat :=
  match l with
  | [] => []
  | x :: rest =>
    if key x = k then i :: keyIndexesFrom key (i + 1) rest k
    else keyIndexesFrom key (i + 1) rest k

/-- The ascending list of positions of x in b. -/
def indexesOf [DecidableEq α] (b : List α) (x : α) : List Nat :=
  keyIndexesFrom id 0 b x

/-! ### The matching engine

longestMatch, the worklist in matches, the normalizer and
spansForMatches, parameterized by the sequences, the index-map lookup
and the equality notion, exactly as both Go variants instantiate them. -/

/-- Lookup in the rolling run-length row: Go reads j2len[j-1] with 0 as
the missing-key default; for j = 0 the key is -1, which is never set. -/
def look (m : Nat → Nat) (j : Nat) : Nat := if j = 0 then 0 else m (j - 1)

/-- The inner candidate loop of longestMatch for row i: skip candidates
before the window, stop at the first candidate past it (the index lists
are ascending), otherwise extend the run ending at (i, j) and update the
best match on strict improvement.  The Go i-k+1 and j-k+1 are written
i+1-k and j+1-k: equal in Nat whenever k ≤ i+1 and k ≤ j+1, which holds
in every reachable state (see the scan bounds lemmas). -/
def innerLoop (i bStart bEnd : Nat) (j2 : Nat → Nat) :
    List Nat → (Nat → Nat) → Match → ((Nat → Nat) × Match)
  | [], newJ2, best => (newJ2, best)
  | j :: rest, newJ2, best =>
    if j < bStart then innerLoop i bStart bEnd j2 rest newJ2 best
    else if bEnd ≤ j then (newJ2, best)
    else
      let k := look j2 j + 1
      let newJ2' : Nat → Nat := fun j' => if j' = j then k else newJ2 j'
      let best' : Match := if best.length < k then ⟨i + 1 - k, j + 1 - k, k⟩ else best
      innerLoop i bStart bEnd j2 rest newJ2' best'

/-- The outer row loop of longestMatch: one row per i in [aStart, aEnd),
run here on the structurally decreasing row count aEnd - i; the
candidate list is the index-map entry of A[i] (empty when the lookup
misses, in which case the rolling row still resets). -/
def scanRows [Inhabited α] (A : List α) (b2j : α → Option (List Nat))
    (bStart bEnd : Nat) : Nat → Nat → (Nat → Nat) → Match → Match
  | 0, _, _, best => best
  | count + 1, i, j2, best =>
    let st := innerLoop i bStart bEnd j2 ((b2j (A.getI i)).getD [])
      (fun _ => 0) best
    scanRows A b2j bStart bEnd count (i + 1) st.1 st.2

/-- The backward extension loop of longestMatch, structurally recursive
on bi (the loop guard aStart < bi forces bi > 0, so the bi = 0 case
returns like a failed guard). -/
def extendBack [Inhabited α] (A B : List α) (eqv : α → α → Bool)
    (aStart bStart : Nat) : Nat → Nat → Nat → Match
  | 0, bj, size => ⟨0, bj, size⟩
  | bi + 1, bj, size =>
    if aStart < bi + 1 ∧ bStart < bj ∧
        eqv (A.getI bi) (B.getI (bj - 1)) = true then
      extendBack A B eqv aStart bStart bi (bj - 1) (size + 1)
    else ⟨bi + 1, bj, size⟩

/-- The forward extension loop of longestMatch, run on the structurally
decreasing counter aEnd - (bi + size): when the counter is 0 the loop
guard bi + size < aEnd is false and the loop returns size. -/
def extendFwd [Inhabited α] (A B : List α) (eqv : α → α → Bool)
    (aEnd bEnd bi bj : Nat) : Nat → Nat → Nat
  | 0, size => size
  | fuel + 1, size =>
    if bi + size < aEnd ∧ bj + size < bEnd ∧
        eqv (A.getI (bi + size)) (B.getI (bj + size)) = true then
      extendFwd A B eqv aEnd bEnd bi bj fuel (size + 1)
    else size

/-- longestMatch (diff2.go / keyed variant): DP scan over the window,
then greedy backward and forward extension. -/
def longestMatch [Inhabited α] (A B : List α) (b2j : α → Option (List Nat))
    (eqv : α → α → Bool) (quad : Quad) : Match :=
  let best := scanRows A b2j quad.Bstart quad.Bend
    (quad.Aend - quad.Astart) quad.Astart
    (fun _ => 0) ⟨quad.Astart, quad.Bstart, 0⟩
  let back := extendBack A B eqv quad.Astart quad.Bstart
    best.astart best.bstart best.length
  let size := extendFwd A B eqv quad.Aend quad.Bend
    back.astart back.bstart (quad.Aend - (back.astart + back.length))
    back.length
  ⟨back.astart, back.bstart, size⟩

/-- The iterative worklist of matches(): the Go slice is a stack whose
top is the list head here; the left sub-window is pushed before the
right one, so the right one is popped first.  The loop is run on
explicit fuel; the termination theorem shows the fuel
len(A) + len(B) + 1 is never exhausted. -/
def runQueue [Inhabited α] (A B : List α) (b2j : α → Option (List Nat))
    (eqv : α → α → Bool) :
    Nat → List Quad → List Match → Option (List Match)
  | _, [], acc => some acc
  | 0, _ :: _, _ => none
  | fuel + 1, quad :: rest, acc =>
    let m := longestMatch A B b2j eqv quad
    if m.length = 0 then runQueue A B b2j eqv fuel rest acc
    else
      let q1 := if quad.Astart < m.astart ∧ quad.Bstart < m.bstart then
        (⟨quad.Astart, m.astart, quad.Bstart, m.bstart⟩ : Quad) :: rest
        else rest
      let q2 := if m.astart + m.length < quad.Aend ∧
          m.bstart + m.length < quad.Bend then
        (⟨m.astart + m.length, quad.Aend, m.bstart + m.length, quad.Bend⟩ : Quad) :: q1
        else q1
      runQueue A B b2j eqv fuel q2 (acc ++ [m])

/-- Modelled from the spec: the comparator matchCompare used by
slices.SortFunc in matches() is not among the provided sources; section
4.3 of the spec sorts the match list by (aStart, bStart, length)
ascending.  matchLe is that lexicographic order. -/
def matchLe (m n : Match) : Bool :=
  if m.astart = n.astart then
    if m.bstart = n.bstart then decide (m.length ≤ n.length)
    else decide (m.bstart < n.bstart)
  else decide (m.astart < n.astart)

/-- Insertion step of the sort of matches() by matchLe. -/
def insertSorted (m : Match) : List Match → List Match
  | [] => [m]
  | n :: rest => if matchLe m n then m :: n :: rest else n :: insertSorted m rest

/-- Sort of the match list by (aStart, bStart, length) ascending. -/
def sortMatches : List Match → List Match
  | [] => []
  | m :: rest => insertSorted m (sortMatches rest)

/-- The normalizer walk of matches(): coalesce adjacent runs, flushing
the accumulator (aS, bS, len) when the next match is not adjacent;
zero-length accumulators are never flushed. -/
def coalesceAux : Nat → Nat → Nat → List Match → List Match
  | aS, bS, len, [] => if len = 0 then [] else [⟨aS, bS, len⟩]
  | aS, bS, len, m :: rest =>
    if aS + len = m.astart ∧ bS + len = m.bstart then
      coalesceAux aS bS (len + m.length) rest
    else
      (if len = 0 then [] else [⟨aS, bS, len⟩]) ++
        coalesceAux m.astart m.bstart m.length rest

/-- matches() (diff2.go / keyed variant): worklist search, sort,
coalesce, and the terminal zero-length sentinel. -/
def matchesOf [Inhabited α] (A B : List α) (b2j : α → Option (List Nat))
    (eqv : α → α → Bool) : List Match :=
  let raw := (runQueue A B b2j eqv (A.length + B.length + 1)
    [⟨0, A.length, 0, B.length⟩] []).getD []
  coalesceAux 0 0 0 (sortMatches raw) ++ [⟨A.length, B.length, 0⟩]

/-- spansForMatches (diff2.go): classify the gap before each match and
emit an Equal span for each positive-length match. -/
def spansAux : Nat → Nat → List Match → List Span
  | _, _, [] => []
  | i, j, m :: rest =>
    let tag : Tag :=
      if i < m.astart then (if j < m.bstart then .Replace else .Delete)
      else if j < m.bstart then .Insert
      else .Equal
    let gap : List Span :=
      if tag = .Equal then [] else [⟨tag, i, m.astart, j, m.bstart⟩]
    let eqs : List Span :=
      if m.length = 0 then [] else
        [⟨.Equal, m.astart, m.astart + m.length, m.bstart, m.bstart + m.length⟩]
    gap ++ eqs ++ spansAux (m.astart + m.length) (m.bstart + m.length) rest

/-- spansForMatches (diff2.go). -/
def spansForMatches (ms : List Match) : List Span := spansAux 0 0 ms

/-- Go slice l[s:e]. -/
def sliceList (l : List α) (s e : Nat) : List α := (l.drop s).take (e - s)

/-! ### The two public variants -/

/-- The direct-equality engine (diff2.go). -/
structure Diff (α : Type) where
  A : List α
  B : List α
  b2j : List (α × List Nat)

/-- New (diff2.go): store the sequences and build the pruned index map. -/
def Diff.new [DecidableEq α] (a b : List α) : Diff α :=
  ⟨a, b, chainBseq b⟩

/-- The index lookup and equality notion of the direct variant. -/
def Diff.lk [DecidableEq α] (d : Diff α) : α → Option (List Nat) :=
  fun x => alookup d.b2j x

/-- Direct element equality, as a Bool like the Go comparison. -/
def beqOf [DecidableEq α] : α → α → Bool := fun x y => decide (x = y)

/-- Diff.Spans (diff2.go). -/
def Diff.spans [DecidableEq α] [Inhabited α] (d : Diff α) : List Span :=
  spansForMatches (matchesOf d.A d.B d.lk beqOf)

/-- Diff.Blocks (diff2.go): materialize each span, guarding the slice by
the defensive end-index checks of the Go code. -/
def Diff.blocks [DecidableEq α] [Inhabited α] (d : Diff α) : List (Block α) :=
  d.spans.map fun s =>
    ⟨s.tag,
     if s.Aend ≤ d.A.length then sliceList d.A s.Astart s.Aend else [],
     if s.Bend ≤ d.B.length then sliceList d.B s.Bstart s.Bend else []⟩

/-- The keyed engine (keyed variant source): equality is decided by the
string returned by the key function; the index map is keyed by it and
never pruned. -/
structure DiffKeyFn (α : Type) where
  A : List α
  B : List α
  b2j : List (String × List Nat)
  keyfn : α → String

/-- NewKeyFn: store the sequences and build the unpruned keyed map. -/
def DiffKeyFn.new (a b : List α) (keyfn : α → String) : DiffKeyFn α :=
  ⟨a, b, chainAux keyfn [] 0 b, keyfn⟩

/-- The index lookup of the keyed variant. -/
def DiffKeyFn.lk (d : DiffKeyFn α) : α → Option (List Nat) :=
  fun x => alookup d.b2j (d.keyfn x)

/-- The key-equality notion of the keyed variant. -/
def DiffKeyFn.eqv (d : DiffKeyFn α) : α → α → Bool :=
  fun x y => decide (d.keyfn x = d.keyfn y)

/-- DiffKeyFn.Spans. -/
def DiffKeyFn.spans [Inhabited α] (d : DiffKeyFn α) : List Span :=
  spansForMatches (matchesOf d.A d.B d.lk d.eqv)

/-- DiffKeyFn.Blocks. -/
def DiffKeyFn.blocks [Inhabited α] (d : DiffKeyFn α) : List (BlockKeyFn α) :=
  d.spans.map fun s =>
    ⟨s.tag,
     if s.Aend ≤ d.A.length then sliceList d.A s.Astart s.Aend else [],
     if s.Bend ≤ d.B.length then sliceList d.B s.Bstart s.Bend else []⟩

/-! ### Specification predicates

Predicates used to state the claims: they follow the spec's wording
(partition, per-tag shape, separation of matches), not the code. -/

/-- Option-valued append used to characterize chainAux lookups. -/
def oapp : Option (List Nat) → List Nat → Option (List Nat)
  | none, [] => none
  | none, occ => some occ
  | some e, occ => some (e ++ occ)

/-- A match list is a chain from cursors (a, b): every match starts at
or after the running cursors and advances them to its end. -/
def Chain : Nat → Nat → List Match → Prop
  | _, _, [] => True
  | a, b, m :: rest =>
    a ≤ m.astart ∧ b ≤ m.bstart ∧
      Chain (m.astart + m.length) (m.bstart + m.length) rest

/-- The elements covered by a match are equal under eqv. -/
def MatchRun [Inhabited α] (A B : List α) (eqv : α → α → Bool)
    (m : Match) : Prop :=
  ∀ t < m.length, eqv (A.getI (m.astart + t)) (B.getI (m.bstart + t)) = true

/-- m lies entirely before n, in both dimensions. -/
def Before (m n : Match) : Prop :=
  m.astart + m.length ≤ n.astart ∧ m.bstart + m.length ≤ n.bstart

/-- A well-formed search window. -/
def QuadWF (q : Quad) : Prop := q.Astart ≤ q.Aend ∧ q.Bstart ≤ q.Bend

/-- A match lies entirely before or entirely after a window. -/
def SepMQ (m : Match) (q : Quad) : Prop :=
  (m.astart + m.length ≤ q.Astart ∧ m.bstart + m.length ≤ q.Bstart) ∨
    (q.Aend ≤ m.astart ∧ q.Bend ≤ m.bstart)

/-- Window q lies entirely before window q', in both dimensions. -/
def QuadBefore (q q' : Quad) : Prop :=
  q.Aend ≤ q'.Astart ∧ q.Bend ≤ q'.Bstart

/-- Size measure of a window used for the worklist termination bound. -/
def measureQ (q : Quad) : Nat := (q.Aend - q.Astart) + (q.Bend - q.Bstart) + 1

/-- Total measure of the worklist. -/
def measureQs (l : List Quad) : Nat := (l.map measureQ).sum

/-- The spans starting at cursors (i, j) are contiguous in lockstep:
each span begins exactly at the running cursors, has nondecreasing
ranges, and advances the cursors to its end. -/
def Contig : Nat → Nat → List Span → Prop
  | _, _, [] => True
  | i, j, s :: rest =>
    s.Astart = i ∧ s.Bstart = j ∧ s.Astart ≤ s.Aend ∧ s.Bstart ≤ s.Bend ∧
      Contig s.Aend s.Bend rest

/-- Final cursors after walking a span list from (i, j). -/
def endsAt : Nat → Nat → List Span → Nat × Nat
  | i, j, [] => (i, j)
  | _, _, s :: rest => endsAt s.Aend s.Bend rest

/-- Final A-cursor after walking a match list from a. -/
def endA : Nat → List Match → Nat
  | a, [] => a
  | _, m :: rest => endA (m.astart + m.length) rest

/-- Final B-cursor after walking a match list from b. -/
def endB : Nat → List Match → Nat
  | b, [] => b
  | _, m :: rest => endB (m.bstart + m.length) rest

/-- Per-tag shape of a span, with element-wise equality under eqv for
Equal spans. -/
def SpanShapeB [Inhabited α] (A B : List α) (eqv : α → α → Bool)
    (s : Span) : Prop :=
  match s.tag with
  | .Insert => s.Astart = s.Aend
  | .Delete => s.Bstart = s.Bend
  | .Replace => s.Astart < s.Aend ∧ s.Bstart < s.Bend
  | .Equal => s.Aend - s.Astart = s.Bend - s.Bstart ∧ s.Astart < s.Aend ∧
      ∀ t, s.Astart + t < s.Aend →
        eqv (A.getI (s.Astart + t)) (B.getI (s.Bstart + t)) = true

/-- Per-tag shape of a span for the direct-equality variant: Insert
spans have an empty A-range, Delete spans an empty B-range, Replace
spans two non-empty ranges, Equal spans two ranges of equal positive
length whose elements are equal. -/
def SpanShape [Inhabited α] (A B : List α) (s : Span) : Prop :=
  match s.tag with
  | .Insert => s.Astart = s.Aend
  | .Delete => s.Bstart = s.Bend
  | .Replace => s.Astart < s.Aend ∧ s.Bstart < s.Bend
  | .Equal => s.Aend - s.Astart = s.Bend - s.Bstart ∧ s.Astart < s.Aend ∧
      ∀ t, s.Astart + t < s.Aend →
        A.getI (s.Astart + t) = B.getI (s.Bstart + t)

/-- Invariant of the rolling run-length row entering the scan of row i:
a nonzero entry at j records a run of that length ending at (i-1, j)
that lies inside the window. -/
def PrevRow [Inhabited α] (A B : List α) (eqv : α → α → Bool)
    (aStart bStart bEnd i : Nat) (j2 : Nat → Nat) : Prop :=
  ∀ j, j2 j ≠ 0 → bStart ≤ j ∧ j < bEnd ∧ j2 j + bStart ≤ j + 1 ∧
    j2 j + aStart ≤ i ∧
    ∀ t < j2 j,
      eqv (A.getI (i - j2 j + t)) (B.getI (j + 1 - j2 j + t)) = true

/-- Invariant of the best match entering the scan of row ib: it lies in
the window, ends at or before row ib, and covers equal elements. -/
def BestInv [Inhabited α] (A B : List α) (eqv : α → α → Bool)
    (aStart bStart bEnd ib : Nat) (b : Match) : Prop :=
  aStart ≤ b.astart ∧ bStart ≤ b.bstart ∧ b.astart + b.length ≤ ib ∧
    b.bstart + b.length ≤ bEnd ∧ MatchRun A B eqv b

/-- The index-map lookup is sound for the equality notion: every
position in an entry's list holds an element of B equal (under eqv) to
the entry's key. -/
def B2jOk [Inhabited α] (B : List α) (b2j : α → Option (List Nat))
    (eqv : α → α → Bool) : Prop :=
  ∀ x l j, b2j x = some l → j ∈ l → eqv x (B.getI j) = true

/-- The candidate list of row i of the scan (empty when the index-map
lookup misses, exactly as scanRows reads it). -/
def candOf [Inhabited α] (a : List α) (b2j : α → Option (List Nat))
    (i : Nat) : List Nat :=
  (b2j (a.getI i)).getD []

/-- Reference value for the identity scan of a against itself: the
length of the run of index-hitting rows ending at row r (0 when row r
misses the index).  This is the value the scan accumulates on its main
diagonal. -/
def dseq [Inhabited α] (a : List α) (b2j : α → Option (List Nat)) :
    Nat → Nat
  | 0 => if candOf a b2j 0 = [] then 0 else 1
  | r + 1 => if candOf a b2j (r + 1) = [] then 0 else dseq a b2j r + 1

/-- The diagonal reference value carried into row i: dseq of the
previous row, 0 at row 0. -/
def dprev [Inhabited α] (a : List α) (b2j : α → Option (List Nat))
    (i : Nat) : Nat :=
  if i = 0 then 0 else dseq a b2j (i - 1)

/-- A recorded match is acceptable: positive length, in bounds, and
covering equal elements. -/
def MatchOK [Inhabited α] (A B : List α) (eqv : α → α → Bool)
    (m : Match) : Prop :=
  1 ≤ m.length ∧ m.astart + m.length ≤ A.length ∧
    m.bstart + m.length ≤ B.length ∧ MatchRun A B eqv m

/-- A worklist window is acceptable: well formed and inside both
sequences. -/
def QuadOK (la lb : Nat) (q : Quad) : Prop :=
  QuadWF q ∧ q.Aend ≤ la ∧ q.Bend ≤ lb

/-- Two matches are ordered one way or the other. -/
def SymBefore (m n : Match) : Prop := Before m n ∨ Before n m

/-- Two windows are ordered one way or the other. -/
def SymQB (q q' : Quad) : Prop := QuadBefore q q' ∨ QuadBefore q' q

/-- A match lies inside a window. -/
def MInQ (m : Match) (q : Quad) : Prop :=
  q.Astart ≤ m.astart ∧ m.astart + m.length ≤ q.Aend ∧
    q.Bstart ≤ m.bstart ∧ m.bstart + m.length ≤ q.Bend

/-- The record type of the keyed-variant scenario (the Place struct of
the Go examples): two numeric fields and a name used as the key. -/
structure Place where
  x : Nat
  y : Nat
  name : String
deriving DecidableEq, Repr, Inhabited

/-! ## Lemmas: the element-index map -/

theorem oapp_some (e : List Nat) (occ : List Nat) :
    oapp (some e) occ = some (e ++ occ) := rfl

theorem oapp_none_eq (occ : List Nat) :
    oapp none occ = if occ = [] then none else some occ := by
  cases occ <;> simp [oapp]

theorem alookup_aupdate [DecidableEq κ] (m : List (κ × List Nat))
    (k : κ) (i : Nat) (q : κ) :
    alookup (aupdate m k i) q =
      if q = k then some ((alookup m k).getD [] ++ [i])
      else alookup m q := by
  induction m with
  | nil =>
    by_cases h : q = k
    · subst h; simp [aupdate, alookup]
    · simp [aupdate, alookup, h, Ne.symm h]
  | cons e rest ih =>
    obtain ⟨k', l⟩ := e
    by_cases h1 : k' = k
    · subst h1
      by_cases h2 : q = k'
      · subst h2; simp [aupdate, alookup]
      · simp [aupdate, alookup, h2, Ne.symm h2]
    · by_cases h2 : k' = q
      · subst h2
        simp [aupdate, alookup, h1, ih, fun hh : k' = k => h1 hh]
      · simp [aupdate, alookup, h1, h2, ih]

theorem alookup_chainAux [DecidableEq κ] (key : α → κ) (l : List α) :
    ∀ (m : List (κ × List Nat)) (i : Nat) (q : κ),
      alookup (chainAux key m i l) q =
        oapp (alookup m q) (keyIndexesFrom key i l q) := by
  induction l with
  | nil =>
    intro m i q
    cases h : alookup m q <;> simp [chainAux, keyIndexesFrom, oapp, h]
  | cons x rest ih =>
    intro m i q
    rw [chainAux, ih, alookup_aupdate]
    by_cases h : q = key x
    · subst h
      rw [keyIndexesFrom, if_pos rfl]
      cases hm : alookup m (key x) with
      | none => cases h2 : keyIndexesFrom key (i + 1) rest (key x) <;>
          simp [oapp, hm, h2]
      | some e => simp [oapp, hm]
    · simp [keyIndexesFrom, h, Ne.symm h]

theorem alookup_chainAux_nil [DecidableEq κ] (key : α → κ) (b : List α)
    (q : κ) :
    alookup (chainAux key [] 0 b) q =
      if keyIndexesFrom key 0 b q = [] then none
      else some (keyIndexesFrom key 0 b q) := by
  rw [alookup_chainAux]
  simp [alookup, oapp_none_eq]

theorem keyIndexesFrom_length [DecidableEq κ] (key : α → κ) (q : κ) :
    ∀ (l : List α) (i : Nat),
      (keyIndexesFrom key i l q).length =
        l.countP (fun x => decide (key x = q)) := by
  intro l
  induction l with
  | nil => intro i; simp [keyIndexesFrom]
  | cons x rest ih =>
    intro i
    by_cases h : key x = q <;>
      simp [keyIndexesFrom, h, ih, List.countP_cons]

theorem keyIndexesFrom_eq_nil [DecidableEq κ] (key : α → κ) (q : κ)
    (l : List α) (i : Nat) :
    keyIndexesFrom key i l q = [] ↔
      l.countP (fun x => decide (key x = q)) = 0 := by
  rw [← keyIndexesFrom_length key q l i, List.length_eq_zero]

theorem mem_keyIndexesFrom_ge [DecidableEq κ] (key : α → κ) (q : κ) :
    ∀ (l : List α) (i j : Nat), j ∈ keyIndexesFrom key i l q → i ≤ j := by
  intro l
  induction l with
  | nil => intro i j h; simp [keyIndexesFrom] at h
  | cons x rest ih =>
    intro i j h
    by_cases hx : key x = q
    · simp [keyIndexesFrom, hx] at h
      rcases h with h | h
      · omega
      · have := ih (i + 1) j h; omega
    · simp [keyIndexesFrom, hx] at h
      have := ih (i + 1) j h; omega

theorem keyIndexesFrom_sorted [DecidableEq κ] (key : α → κ) (q : κ) :
    ∀ (l : List α) (i : Nat),
      List.Pairwise (· < ·) (keyIndexesFrom key i l q) := by
  intro l
  induction l with
  | nil => intro i; simp [keyIndexesFrom]
  | cons x rest ih =>
    intro i
    by_cases hx : key x = q
    · simp only [keyIndexesFrom, hx, if_pos rfl]
      refine List.Pairwise.cons ?_ (ih (i + 1))
      intro j hj
      have := mem_keyIndexesFrom_ge key q rest (i + 1) j hj
      omega
    · simp only [keyIndexesFrom, hx, if_neg hx]
      exact ih (i + 1)

theorem getI_cons_succ [Inhabited α] (x : α) (l : List α) (n : Nat) :
    (x :: l).getI (n + 1) = l.getI n := rfl

theorem getI_cons_zero [Inhabited α] (x : α) (l : List α) :
    (x :: l).getI 0 = x := rfl

theorem mem_keyIndexesFrom [DecidableEq κ] [Inhabited α] (key : α → κ)
    (q : κ) :
    ∀ (l : List α) (i j : Nat), j ∈ keyIndexesFrom key i l q →
      i ≤ j ∧ j < i + l.length ∧ key (l.getI (j - i)) = q := by
  intro l
  induction l with
  | nil => intro i j h; simp [keyIndexesFrom] at h
  | cons x rest ih =>
    intro i j h
    by_cases hx : key x = q
    · rw [keyIndexesFrom, if_pos hx] at h
      rcases List.mem_cons.mp h with h | h
      · subst h
        refine ⟨le_refl _, by simp, ?_⟩
        simpa [getI_cons_zero] using hx
      · obtain ⟨h1, h2, h3⟩ := ih (i + 1) j h
        refine ⟨by omega, by simp; omega, ?_⟩
        have hj : j - i = (j - (i + 1)) + 1 := by omega
        rw [hj, getI_cons_succ]
        exact h3
    · rw [keyIndexesFrom, if_neg hx] at h
      obtain ⟨h1, h2, h3⟩ := ih (i + 1) j h
      refine ⟨by omega, by simp; omega, ?_⟩
      have hj : j - i = (j - (i + 1)) + 1 := by omega
      rw [hj, getI_cons_succ]
      exact h3

theorem keyIndexesFrom_mem_of [DecidableEq κ] [Inhabited α] (key : α → κ)
    (q : κ) :
    ∀ (l : List α) (i t : Nat), t < l.length → key (l.getI t) = q →
      i + t ∈ keyIndexesFrom key i l q := by
  intro l
  induction l with
  | nil => intro i t ht; simp at ht
  | cons x rest ih =>
    intro i t ht hk
    cases t with
    | zero =>
      rw [getI_cons_zero] at hk
      simp [keyIndexesFrom, hk]
    | succ t' =>
      rw [getI_cons_succ] at hk
      have hmem := ih (i + 1) t' (by simpa using ht) hk
      have harith : i + (t' + 1) = (i + 1) + t' := by omega
      by_cases hx : key x = q
      · rw [keyIndexesFrom, if_pos hx]
        exact List.mem_cons.mpr (Or.inr (harith ▸ hmem))
      · rw [keyIndexesFrom, if_neg hx]
        exact harith ▸ hmem

theorem alookup_eq_none_of_not_mem [DecidableEq κ]
    (m : List (κ × List Nat)) (q : κ) (h : q ∉ m.map Prod.fst) :
    alookup m q = none := by
  induction m with
  | nil => rfl
  | cons e rest ih =>
    obtain ⟨k', l⟩ := e
    simp only [List.map_cons, List.mem_cons] at h
    push_neg at h
    rw [alookup, if_neg (fun hh => h.1 hh.symm)]
    exact ih h.2

theorem mem_keys_aupdate [DecidableEq κ] (m : List (κ × List Nat))
    (k : κ) (i : Nat) (q : κ) (h : q ∈ (aupdate m k i).map Prod.fst) :
    q ∈ m.map Prod.fst ∨ q = k := by
  induction m with
  | nil => simpa [aupdate] using h
  | cons e rest ih =>
    obtain ⟨k', l⟩ := e
    by_cases h1 : k' = k
    · subst h1
      rw [aupdate, if_pos rfl] at h
      simp only [List.map_cons, List.mem_cons] at h ⊢
      exact Or.inl h
    · rw [aupdate, if_neg h1] at h
      simp only [List.map_cons, List.mem_cons] at h ⊢
      rcases h with h | h
      · exact Or.inl (Or.inl h)
      · rcases ih h with h2 | h2
        · exact Or.inl (Or.inr h2)
        · exact Or.inr h2

theorem nodup_keys_aupdate [DecidableEq κ] (m : List (κ × List Nat))
    (k : κ) (i : Nat) (h : (m.map Prod.fst).Nodup) :
    ((aupdate m k i).map Prod.fst).Nodup := by
  induction m with
  | nil => simp [aupdate]
  | cons e rest ih =>
    obtain ⟨k', l⟩ := e
    simp only [List.map_cons, List.nodup_cons] at h
    by_cases h1 : k' = k
    · subst h1
      rw [aupdate, if_pos rfl]
      simp only [List.map_cons, List.nodup_cons]
      exact h
    · rw [aupdate, if_neg h1]
      simp only [List.map_cons, List.nodup_cons]
      refine ⟨?_, ih h.2⟩
      intro hmem
      rcases mem_keys_aupdate rest k i k' hmem with h2 | h2
      · exact h.1 h2
      · exact h1 h2

theorem nodup_keys_chainAux [DecidableEq κ] (key : α → κ) :
    ∀ (l : List α) (m : List (κ × List Nat)) (i : Nat),
      (m.map Prod.fst).Nodup → ((chainAux key m i l).map Prod.fst).Nodup := by
  intro l
  induction l with
  | nil => intro m i h; exact h
  | cons x rest ih =>
    intro m i h
    exact ih _ _ (nodup_keys_aupdate m (key x) i h)

theorem mem_keys_filter [DecidableEq κ] (p : κ × List Nat → Bool)
    (m : List (κ × List Nat)) (q : κ)
    (h : q ∈ (m.filter p).map Prod.fst) : q ∈ m.map Prod.fst := by
  induction m with
  | nil => simp at h
  | cons e rest ih =>
    by_cases hp : p e = true
    · rw [List.filter_cons_of_pos hp] at h
      simp only [List.map_cons, List.mem_cons] at h ⊢
      rcases h with h | h
      · exact Or.inl h
      · exact Or.inr (ih h)
    · rw [List.filter_cons_of_neg (by simpa using hp)] at h
      simp only [List.map_cons, List.mem_cons]
      exact Or.inr (ih h)

theorem alookup_filter [DecidableEq κ] (p : κ × List Nat → Bool) :
    ∀ (m : List (κ × List Nat)), (m.map Prod.fst).Nodup → ∀ (q : κ),
      alookup (m.filter p) q =
        match alookup m q with
        | none => none
        | some e => if p (q, e) = true then some e else none := by
  intro m
  induction m with
  | nil => intro _ q; rfl
  | cons e rest ih =>
    intro hnd q
    obtain ⟨k', l⟩ := e
    simp only [List.map_cons, List.nodup_cons] at hnd
    by_cases hk : k' = q
    · subst hk
      rw [alookup, if_pos rfl]
      by_cases hp : p (k', l) = true
      · rw [List.filter_cons_of_pos hp, alookup, if_pos rfl]
        exact (if_pos hp).symm
      · rw [List.filter_cons_of_neg (by simpa using hp)]
        have hnone : alookup (List.filter p rest) k' =
            (none : Option (List Nat)) := by
          refine alookup_eq_none_of_not_mem _ _ ?_
          intro hmem
          exact hnd.1 (mem_keys_filter p rest k' hmem)
        rw [hnone]
        exact (if_neg hp).symm
    · rw [alookup, if_neg hk]
      by_cases hp : p (k', l) = true
      · rw [List.filter_cons_of_pos hp, alookup, if_neg hk]
        exact ih hnd.2 q
      · rw [List.filter_cons_of_neg (by simpa using hp)]
        exact ih hnd.2 q

/-- The count of an element equals the length of its index list. -/
theorem indexesOf_length [DecidableEq α] (b : List α) (x : α) :
    (indexesOf b x).length = b.count x := by
  rw [indexesOf, keyIndexesFrom_length, List.count]
  refine List.countP_congr ?_
  intro y _
  rfl

/-- Lookup in the direct variant's index map, before pruning. -/
theorem alookup_chain_id [DecidableEq α] (b : List α) (x : α) :
    alookup (chainAux id [] 0 b) x =
      if indexesOf b x = [] then none else some (indexesOf b x) := by
  rw [alookup_chainAux_nil]
  rfl

/-- Full characterization of the direct variant's pruned index map. -/
theorem alookup_chainBseq [DecidableEq α] (b : List α) (x : α) :
    alookup (chainBseq b) x =
      if indexesOf b x = [] then none
      else if 200 ≤ b.length ∧ 1 + b.length / 100 < (indexesOf b x).length
        then none
      else some (indexesOf b x) := by
  have hnd := nodup_keys_chainAux id b ([] : List (α × List Nat)) 0 (by simp)
  rw [chainBseq]
  by_cases h2 : 200 ≤ b.length
  · rw [if_pos h2, alookup_filter _ _ hnd x, alookup_chain_id]
    by_cases h0 : indexesOf b x = []
    · simp [h0]
    · rw [if_neg h0, if_neg h0]
      by_cases h3 : 1 + b.length / 100 < (indexesOf b x).length
      · rw [if_pos (show _ ∧ _ from ⟨h2, h3⟩)]
        show (if (decide ((indexesOf b x).length ≤ 1 + b.length / 100)) = true
          then some (indexesOf b x) else none) = none
        rw [if_neg (by simp; omega)]
      · rw [if_neg (fun hc : _ ∧ _ => h3 hc.2)]
        show (if (decide ((indexesOf b x).length ≤ 1 + b.length / 100)) = true
          then some (indexesOf b x) else none) = some (indexesOf b x)
        rw [if_pos (by simp; omega)]
  · rw [if_neg h2, alookup_chain_id]
    by_cases h0 : indexesOf b x = []
    · simp [h0]
    · rw [if_neg h0, if_neg h0, if_neg (fun hc : _ ∧ _ => h2 hc.1)]

theorem alookup_chainBseq_some [DecidableEq α] (b : List α) (x : α)
    (l : List Nat) (h : alookup (chainBseq b) x = some l) :
    l = indexesOf b x := by
  rw [alookup_chainBseq] at h
  split_ifs at h with h0 h1
  exact (Option.some_injective _ h).symm

theorem alookup_chainAux_some [DecidableEq κ] (key : α → κ) (b : List α)
    (k : κ) (l : List Nat) (h : alookup (chainAux key [] 0 b) k = some l) :
    l = keyIndexesFrom key 0 b k := by
  rw [alookup_chainAux_nil] at h
  split_ifs at h
  exact (Option.some_injective _ h).symm

/-- The direct variant's index lookup is sound for direct equality. -/
theorem lk_sound_direct [DecidableEq α] [Inhabited α] (a b : List α) :
    B2jOk b (Diff.new a b).lk beqOf := by
  intro x l j hl hj
  have hidx : l = indexesOf b x := alookup_chainBseq_some b x l hl
  subst hidx
  obtain ⟨-, h2, h3⟩ := mem_keyIndexesFrom id x b 0 j hj
  simp only [Nat.sub_zero, id] at h3
  simp [beqOf, h3]

/-- The keyed variant's index lookup is sound for key equality. -/
theorem lk_sound_keyed [Inhabited α] (a b : List α) (keyfn : α → String) :
    B2jOk b (DiffKeyFn.new a b keyfn).lk (DiffKeyFn.new a b keyfn).eqv := by
  intro x l j hl hj
  have hidx : l = keyIndexesFrom keyfn 0 b (keyfn x) :=
    alookup_chainAux_some keyfn b (keyfn x) l hl
  subst hidx
  obtain ⟨-, h2, h3⟩ := mem_keyIndexesFrom keyfn (keyfn x) b 0 j hj
  simp only [Nat.sub_zero] at h3
  simp [DiffKeyFn.eqv, DiffKeyFn.new, h3]

/-- C5: pruning applies only to the direct-equality variant.  With
len(B) at least 200, an identity occurring more than
floor(len(B)/100) + 1 times is removed entirely from the map; with
len(B) below 200 every occurring identity keeps its full ascending
index list; the keyed variant's map holds the full index list of every
occurring key no matter how long B is. -/
theorem C5_pruning_policy {α β : Type} [DecidableEq α] :
    (∀ (a b : List α) (x : α), 200 ≤ b.length →
      1 + b.length / 100 < b.count x →
      alookup (Diff.new a b).b2j x = none) ∧
    (∀ (a b : List α) (x : α), b.length < 200 →
      alookup (Diff.new a b).b2j x =
        if b.count x = 0 then none else some (indexesOf b x)) ∧
    (∀ (a b : List β) (keyfn : β → String) (k : String),
      alookup (DiffKeyFn.new a b keyfn).b2j k =
        if keyIndexesFrom keyfn 0 b k = [] then none
        else some (keyIndexesFrom keyfn 0 b k)) := by
  refine ⟨?_, ?_, ?_⟩
  · intro a b x h2 hcount
    show alookup (chainBseq b) x = none
    rw [alookup_chainBseq]
    rw [← indexesOf_length] at hcount
    have h0 : indexesOf b x ≠ [] := by
      intro hnil; rw [hnil] at hcount; simp at hcount
    rw [if_neg h0, if_pos (show _ ∧ _ from ⟨h2, hcount⟩)]
  · intro a b x h2
    show alookup (chainBseq b) x = _
    rw [alookup_chainBseq]
    by_cases h0 : b.count x = 0
    · have hnil : indexesOf b x = [] := by
        rw [← List.length_eq_zero, indexesOf_length]
        exact h0
      rw [if_pos hnil, if_pos h0]
    · have hnil : indexesOf b x ≠ [] := by
        intro hnil
        apply h0
        rw [← indexesOf_length, hnil]
        rfl
      rw [if_neg hnil, if_neg (fun hc : _ ∧ _ => by omega), if_neg h0]
  · intro a b keyfn k
    show alookup (chainAux keyfn [] 0 b) k = _
    exact alookup_chainAux_nil keyfn b k

/-- Witness for C5 at concrete inputs: an identity occurring 200 times
in a 200-element B is pruned by the direct variant; a short B keeps
full index lists; the keyed variant keeps them even when pruning would
have applied. -/
theorem C5_pruning_policy_witness :
    alookup (Diff.new ([] : List Nat) (List.replicate 200 7)).b2j 7 =
        none ∧
    alookup (Diff.new ([] : List Nat) [1, 2, 1]).b2j 1 = some [0, 2] ∧
    alookup (DiffKeyFn.new ([] : List Nat)
        (List.replicate 200 7) (fun n => toString n)).b2j "7" =
      some (keyIndexesFrom (fun n => toString n) 0
        (List.replicate 200 7) "7") :=
  by
  obtain ⟨h1, h2, h3⟩ := C5_pruning_policy (α := Nat) (β := Nat)
  exact ⟨h1 [] (List.replicate 200 7) 7 (by decide) (by decide),
    (h2 [] [1, 2, 1] 1 (by decide)).trans (by decide),
    (h3 [] (List.replicate 200 7) (fun n => toString n) "7").trans
      (by rw [if_neg (by decide)])⟩

/-! ## C6, C7, C9 -/

/-- C6: in the keyed variant, equality is decided solely by the key
function: diffing the records (1,2,foo),(3,4,bar),(5,6,baz),(7,8,quux)
against (1,2,foo),(6,2,baz),(3,4,bar),(7,8,quux) keyed by the name
field yields exactly Equal[foo], Insert[baz(6,2)], Equal[bar],
Delete[baz(5,6)], Equal[quux], aligning the two baz records that differ
in their non-key fields. -/
theorem C6_keyed_by_name :
    (DiffKeyFn.new
      [⟨1, 2, "foo"⟩, ⟨3, 4, "bar"⟩, ⟨5, 6, "baz"⟩, ⟨7, 8, "quux"⟩]
      [⟨1, 2, "foo"⟩, ⟨6, 2, "baz"⟩, ⟨3, 4, "bar"⟩, ⟨7, 8, "quux"⟩]
      Place.name).blocks =
    [⟨.Equal, [⟨1, 2, "foo"⟩], [⟨1, 2, "foo"⟩]⟩,
     ⟨.Insert, [], [⟨6, 2, "baz"⟩]⟩,
     ⟨.Equal, [⟨3, 4, "bar"⟩], [⟨3, 4, "bar"⟩]⟩,
     ⟨.Delete, [⟨5, 6, "baz"⟩], []⟩,
     ⟨.Equal, [⟨7, 8, "quux"⟩], [⟨7, 8, "quux"⟩]⟩] := by decide

/-- C7: rendering a Tag yields exactly one of the four fixed
single-character symbols, and rendering any other numeric value of the
underlying uint8 fails loudly (the Go code panics, modelled as none)
rather than silently defaulting. -/
theorem C7_tag_rendering :
    tagStringCode Tag.Equal.code = some "=" ∧
    tagStringCode Tag.Insert.code = some "+" ∧
    tagStringCode Tag.Delete.code = some "-" ∧
    tagStringCode Tag.Replace.code = some "%" ∧
    (∀ n : Nat, n < 256 → 4 ≤ n → tagStringCode n = none) := by
  refine ⟨rfl, rfl, rfl, rfl, ?_⟩
  intro n _ h4
  rw [tagStringCode, if_neg (by omega), if_neg (by omega),
    if_neg (by omega), if_neg (by omega)]

/-- Witness for C7 at the concrete invalid value 7. -/
theorem C7_tag_rendering_witness : tagStringCode 7 = none :=
  C7_tag_rendering.2.2.2.2 7 (by decide) (by decide)

/-- C9: Spans() and Blocks() are pure functions of the engine's inputs:
two engines built from identical inputs (in particular the same engine
used twice) yield identical span and block lists, for both variants. -/
theorem C9_deterministic {α : Type} [DecidableEq α] [Inhabited α]
    (a b a' b' : List α) (ha : a = a') (hb : b = b') :
    (Diff.new a b).spans = (Diff.new a' b').spans ∧
    (Diff.new a b).blocks = (Diff.new a' b').blocks ∧
    ∀ keyfn : α → String,
      (DiffKeyFn.new a b keyfn).spans = (DiffKeyFn.new a' b' keyfn).spans ∧
      (DiffKeyFn.new a b keyfn).blocks =
        (DiffKeyFn.new a' b' keyfn).blocks := by
  subst ha; subst hb
  exact ⟨rfl, rfl, fun _ => ⟨rfl, rfl⟩⟩

/-- Witness for C9 at concrete inputs. -/
theorem C9_deterministic_witness :
    (Diff.new [1, 2] [2, 3]).spans = (Diff.new [1, 2] [2, 3]).spans ∧
    (Diff.new [1, 2] [2, 3]).blocks = (Diff.new [1, 2] [2, 3]).blocks ∧
    ∀ keyfn : Nat → String,
      (DiffKeyFn.new [1, 2] [2, 3] keyfn).spans =
        (DiffKeyFn.new [1, 2] [2, 3] keyfn).spans ∧
      (DiffKeyFn.new [1, 2] [2, 3] keyfn).blocks =
        (DiffKeyFn.new [1, 2] [2, 3] keyfn).blocks :=
  C9_deterministic [1, 2] [2, 3] [1, 2] [2, 3] rfl rfl

/-! ## Lemmas: the longestMatch scan

The master invariant of the DP scan: rolling-row entries record
in-window runs ending at the previous row, and the best match recorded
so far lies inside the window, ends at or before the current row, and
covers elements equal under eqv. -/

theorem innerLoop_inv [Inhabited α] (A B : List α) (eqv : α → α → Bool)
    (aStart bStart bEnd i : Nat) (j2 : Nat → Nat)
    (HaS : aStart ≤ i)
    (Hrow : PrevRow A B eqv aStart bStart bEnd i j2) :
    ∀ (cand : List Nat), (∀ j ∈ cand, eqv (A.getI i) (B.getI j) = true) →
    ∀ (newJ2 : Nat → Nat) (best : Match),
      PrevRow A B eqv aStart bStart bEnd (i + 1) newJ2 →
      BestInv A B eqv aStart bStart bEnd (i + 1) best →
      PrevRow A B eqv aStart bStart bEnd (i + 1)
          (innerLoop i bStart bEnd j2 cand newJ2 best).1 ∧
        BestInv A B eqv aStart bStart bEnd (i + 1)
          (innerLoop i bStart bEnd j2 cand newJ2 best).2 := by
  intro cand
  induction cand with
  | nil =>
    intro _ newJ2 best hnew hbest
    exact ⟨hnew, hbest⟩
  | cons j rest ih =>
    intro Hc newJ2 best hnew hbest
    have HcRest : ∀ j' ∈ rest, eqv (A.getI i) (B.getI j') = true :=
      fun j' hj' => Hc j' (List.mem_cons_of_mem j hj')
    have HcHead : eqv (A.getI i) (B.getI j) = true :=
      Hc j (List.mem_cons_self j rest)
    rw [innerLoop]
    by_cases h1 : j < bStart
    · rw [if_pos h1]
      exact ih HcRest newJ2 best hnew hbest
    · rw [if_neg h1]
      by_cases h2 : bEnd ≤ j
      · rw [if_pos h2]
        exact ⟨hnew, hbest⟩
      · rw [if_neg h2]
        push_neg at h1 h2
        -- facts about k = look j2 j + 1
        have hfacts : (look j2 j + 1) + bStart ≤ j + 1 ∧
            (look j2 j + 1) + aStart ≤ i + 1 ∧
            ∀ t < look j2 j + 1,
              eqv (A.getI (i + 1 - (look j2 j + 1) + t))
                (B.getI (j + 1 - (look j2 j + 1) + t)) = true := by
          by_cases hv : look j2 j = 0
          · rw [hv]
            refine ⟨?_, by omega, ?_⟩
            · rcases Nat.eq_zero_or_pos j with hj0 | hj0
              · subst hj0
                have : bStart = 0 := by omega
                omega
              · rw [look, if_neg (by omega)] at hv
                have := Hrow (j - 1)
                by_cases hz : j2 (j - 1) = 0
                · omega
                · obtain ⟨c1, c2, c3, c4, -⟩ := this hz
                  omega
            · intro t ht
              have ht0 : t = 0 := by omega
              subst ht0
              have e1 : i + 1 - (0 + 1) + 0 = i := by omega
              have e2 : j + 1 - (0 + 1) + 0 = j := by omega
              rw [e1, e2]
              exact HcHead
          · have hj0 : j ≠ 0 := by
              intro h0; subst h0; rw [look, if_pos rfl] at hv; exact hv rfl
            have hlk : look j2 j = j2 (j - 1) := by rw [look, if_neg hj0]
            rw [hlk] at hv ⊢
            obtain ⟨c1, c2, c3, c4, hrun⟩ := Hrow (j - 1) hv
            refine ⟨by omega, by omega, ?_⟩
            intro t ht
            by_cases hlast : t = j2 (j - 1)
            · subst hlast
              have e1 : i + 1 - (j2 (j - 1) + 1) + j2 (j - 1) = i := by
                omega
              have e2 : j + 1 - (j2 (j - 1) + 1) + j2 (j - 1) = j := by
                omega
              rw [e1, e2]
              exact HcHead
            · have ht' : t < j2 (j - 1) := by omega
              have e1 : i + 1 - (j2 (j - 1) + 1) + t =
                  i - j2 (j - 1) + t := by omega
              have e2 : j + 1 - (j2 (j - 1) + 1) + t =
                  (j - 1) + 1 - j2 (j - 1) + t := by omega
              rw [e1, e2]
              exact hrun t ht'
        obtain ⟨hf1, hf2, hf3⟩ := hfacts
        refine ih HcRest _ _ ?_ ?_
        · -- updated row keeps the invariant
          intro j' hne
          by_cases hj' : j' = j
          · subst hj'
            refine ⟨by omega, h2, ?_, ?_, ?_⟩
            · simpa using hf1
            · simpa using hf2
            · intro t ht
              simp only [if_pos rfl] at ht ⊢
              exact hf3 t ht
          · simp only [if_neg hj'] at hne ⊢
            exact hnew j' hne
        · -- updated best keeps the invariant
          by_cases hup : best.length < look j2 j + 1
          · rw [if_pos hup]
            refine ⟨?_, ?_, ?_, ?_, ?_⟩
            · show aStart ≤ i + 1 - (look j2 j + 1)
              omega
            · show bStart ≤ j + 1 - (look j2 j + 1)
              omega
            · show i + 1 - (look j2 j + 1) + (look j2 j + 1) ≤ i + 1
              omega
            · show j + 1 - (look j2 j + 1) + (look j2 j + 1) ≤ bEnd
              omega
            · intro t ht
              exact hf3 t ht
          · rw [if_neg hup]
            exact hbest

theorem BestInv_mono [Inhabited α] (A B : List α) (eqv : α → α → Bool)
    (aStart bStart bEnd ib ib' : Nat) (b : Match) (h : ib ≤ ib')
    (hb : BestInv A B eqv aStart bStart bEnd ib b) :
    BestInv A B eqv aStart bStart bEnd ib' b := by
  obtain ⟨c1, c2, c3, c4, c5⟩ := hb
  exact ⟨c1, c2, by omega, c4, c5⟩

theorem scanRows_inv [Inhabited α] (A B : List α)
    (b2j : α → Option (List Nat)) (eqv : α → α → Bool)
    (aStart bStart bEnd : Nat) (Hok : B2jOk B b2j eqv) :
    ∀ (count i : Nat) (j2 : Nat → Nat) (best : Match),
      aStart ≤ i →
      PrevRow A B eqv aStart bStart bEnd i j2 →
      BestInv A B eqv aStart bStart bEnd i best →
      BestInv A B eqv aStart bStart bEnd (i + count)
        (scanRows A b2j bStart bEnd count i j2 best) := by
  intro count
  induction count with
  | zero =>
    intro i j2 best hi hrow hbest
    simpa [scanRows] using hbest
  | succ c ih =>
    intro i j2 best hi hrow hbest
    simp only [scanRows]
    have Hc : ∀ j ∈ (b2j (A.getI i)).getD [],
        eqv (A.getI i) (B.getI j) = true := by
      intro j hj
      cases hb : b2j (A.getI i) with
      | none => rw [hb] at hj; simp at hj
      | some l =>
        rw [hb] at hj
        exact Hok _ l j hb (by simpa using hj)
    have hvac : PrevRow A B eqv aStart bStart bEnd (i + 1)
        (fun _ => 0) := fun j hj => absurd rfl hj
    have hbest' : BestInv A B eqv aStart bStart bEnd (i + 1) best :=
      BestInv_mono A B eqv aStart bStart bEnd i (i + 1) best
        (by omega) hbest
    obtain ⟨hrow2, hbest2⟩ := innerLoop_inv A B eqv aStart bStart bEnd i
      j2 hi hrow ((b2j (A.getI i)).getD []) Hc (fun _ => 0) best
      hvac hbest'
    have := ih (i + 1) _ _ (by omega) hrow2 hbest2
    have harith : i + 1 + c = i + (c + 1) := by omega
    rw [harith] at this
    exact this

theorem extendBack_spec [Inhabited α] (A B : List α) (eqv : α → α → Bool)
    (aStart bStart : Nat) :
    ∀ (bi bj size : Nat),
      aStart ≤ bi → bStart ≤ bj →
      (∀ t < size, eqv (A.getI (bi + t)) (B.getI (bj + t)) = true) →
      aStart ≤ (extendBack A B eqv aStart bStart bi bj size).astart ∧
      bStart ≤ (extendBack A B eqv aStart bStart bi bj size).bstart ∧
      (extendBack A B eqv aStart bStart bi bj size).astart +
          (extendBack A B eqv aStart bStart bi bj size).length =
        bi + size ∧
      (extendBack A B eqv aStart bStart bi bj size).bstart +
          (extendBack A B eqv aStart bStart bi bj size).length =
        bj + size ∧
      MatchRun A B eqv (extendBack A B eqv aStart bStart bi bj size) := by
  intro bi
  induction bi with
  | zero =>
    intro bj size h1 h2 hrun
    rw [extendBack]
    exact ⟨h1, h2, rfl, rfl, hrun⟩
  | succ n ih =>
    intro bj size h1 h2 hrun
    rw [extendBack]
    by_cases hg : aStart < n + 1 ∧ bStart < bj ∧
        eqv (A.getI n) (B.getI (bj - 1)) = true
    · rw [if_pos hg]
      have hrun' : ∀ t < size + 1,
          eqv (A.getI (n + t)) (B.getI (bj - 1 + t)) = true := by
        intro t ht
        cases t with
        | zero =>
          simpa using hg.2.2
        | succ s =>
          have e1 : n + (s + 1) = (n + 1) + s := by omega
          have e2 : bj - 1 + (s + 1) = bj + s := by omega
          rw [e1, e2]
          exact hrun s (by omega)
      obtain ⟨c1, c2, c3, c4, c5⟩ := ih (bj - 1) (size + 1)
        (by omega) (by omega) hrun'
      exact ⟨c1, c2, by omega, by omega, c5⟩
    · rw [if_neg hg]
      exact ⟨h1, h2, rfl, rfl, hrun⟩

theorem extendFwd_spec [Inhabited α] (A B : List α) (eqv : α → α → Bool)
    (aEnd bEnd bi bj : Nat) :
    ∀ (fuel size : Nat),
      bi + size ≤ aEnd → bj + size ≤ bEnd →
      (∀ t < size, eqv (A.getI (bi + t)) (B.getI (bj + t)) = true) →
      bi + extendFwd A B eqv aEnd bEnd bi bj fuel size ≤ aEnd ∧
      bj + extendFwd A B eqv aEnd bEnd bi bj fuel size ≤ bEnd ∧
      ∀ t < extendFwd A B eqv aEnd bEnd bi bj fuel size,
        eqv (A.getI (bi + t)) (B.getI (bj + t)) = true := by
  intro fuel
  induction fuel with
  | zero =>
    intro size ha hb hrun
    rw [extendFwd]
    exact ⟨ha, hb, hrun⟩
  | succ f ih =>
    intro size ha hb hrun
    rw [extendFwd]
    by_cases hg : bi + size < aEnd ∧ bj + size < bEnd ∧
        eqv (A.getI (bi + size)) (B.getI (bj + size)) = true
    · rw [if_pos hg]
      refine ih (size + 1) (by omega) (by omega) ?_
      intro t ht
      by_cases hts : t = size
      · subst hts
        exact hg.2.2
      · exact hrun t (by omega)
    · rw [if_neg hg]
      exact ⟨ha, hb, hrun⟩

/-- The containment and run specification of longestMatch: on any
well-formed window, with a sound index lookup, the returned match lies
wholly inside the window and covers elements equal under eqv. -/
theorem longestMatch_spec [Inhabited α] (A B : List α)
    (b2j : α → Option (List Nat)) (eqv : α → α → Bool)
    (Hok : B2jOk B b2j eqv) (q : Quad)
    (hqa : q.Astart ≤ q.Aend) (hqb : q.Bstart ≤ q.Bend) :
    q.Astart ≤ (longestMatch A B b2j eqv q).astart ∧
    (longestMatch A B b2j eqv q).astart +
        (longestMatch A B b2j eqv q).length ≤ q.Aend ∧
    q.Bstart ≤ (longestMatch A B b2j eqv q).bstart ∧
    (longestMatch A B b2j eqv q).bstart +
        (longestMatch A B b2j eqv q).length ≤ q.Bend ∧
    MatchRun A B eqv (longestMatch A B b2j eqv q) := by
  have hinit : BestInv A B eqv q.Astart q.Bstart q.Bend q.Astart
      ⟨q.Astart, q.Bstart, 0⟩ := by
    refine ⟨le_refl _, le_refl _, by simp, by simpa using hqb, ?_⟩
    intro t ht
    simp at ht
  have hscan := scanRows_inv A B b2j eqv q.Astart q.Bstart q.Bend Hok
    (q.Aend - q.Astart) q.Astart (fun _ => 0) ⟨q.Astart, q.Bstart, 0⟩
    (le_refl _) (fun j hj => absurd rfl hj) hinit
  have harith : q.Astart + (q.Aend - q.Astart) = q.Aend := by omega
  rw [harith] at hscan
  obtain ⟨s1, s2, s3, s4, s5⟩ := hscan
  simp only [longestMatch]
  set best := scanRows A b2j q.Bstart q.Bend (q.Aend - q.Astart) q.Astart
    (fun _ => 0) ⟨q.Astart, q.Bstart, 0⟩ with hbestdef
  obtain ⟨e1, e2, e3, e4, e5⟩ := extendBack_spec A B eqv q.Astart q.Bstart
    best.astart best.bstart best.length s1 s2 s5
  set back := extendBack A B eqv q.Astart q.Bstart best.astart best.bstart
    best.length with hbackdef
  obtain ⟨f1, f2, f3⟩ := extendFwd_spec A B eqv q.Aend q.Bend
    back.astart back.bstart (q.Aend - (back.astart + back.length))
    back.length (by omega) (by omega) e5
  exact ⟨e1, f1, e2, f2, f3⟩

/-! ## Lemmas: the worklist -/

theorem measureQs_cons (q : Quad) (l : List Quad) :
    measureQs (q :: l) = measureQ q + measureQs l := by
  simp [measureQs]

theorem quadWF_mk (a b c d : Nat) : QuadWF ⟨a, b, c, d⟩ ↔ a ≤ b ∧ c ≤ d :=
  Iff.rfl

theorem measureQ_mk (a b c d : Nat) :
    measureQ ⟨a, b, c, d⟩ = (b - a) + (d - c) + 1 := rfl

/-- The worklist loop completes within fuel bounded by the total window
measure: every pushed sub-window is strictly smaller than its parent
(by at least the positive length of the found match, in each
dimension), and empty-dimension windows contribute only their
constant cost once. -/
theorem runQueue_some [Inhabited α] (A B : List α)
    (b2j : α → Option (List Nat)) (eqv : α → α → Bool)
    (Hok : B2jOk B b2j eqv) :
    ∀ (fuel : Nat) (queue : List Quad) (acc : List Match),
      (∀ q ∈ queue, QuadWF q) →
      measureQs queue ≤ fuel →
      (runQueue A B b2j eqv fuel queue acc).isSome = true := by
  intro fuel
  induction fuel with
  | zero =>
    intro queue acc hwf hm
    cases queue with
    | nil => rw [runQueue]; rfl
    | cons q rest =>
      rw [measureQs_cons] at hm
      simp [measureQ] at hm
  | succ f ih =>
    intro queue acc hwf hm
    cases queue with
    | nil => rw [runQueue]; rfl
    | cons quad rest =>
      have hq : QuadWF quad := hwf quad (List.mem_cons_self quad rest)
      obtain ⟨c1, c2, c3, c4, -⟩ := longestMatch_spec A B b2j eqv Hok quad
        hq.1 hq.2
      have hwfrest : ∀ q ∈ rest, QuadWF q :=
        fun q hh => hwf q (List.mem_cons_of_mem quad hh)
      rw [measureQs_cons] at hm
      simp only [runQueue]
      by_cases hlen : (longestMatch A B b2j eqv quad).length = 0
      · rw [if_pos hlen]
        refine ih rest acc hwfrest ?_
        simp [measureQ] at hm ⊢
        omega
      · rw [if_neg hlen]
        by_cases hl : quad.Astart < (longestMatch A B b2j eqv quad).astart ∧
            quad.Bstart < (longestMatch A B b2j eqv quad).bstart
        · rw [if_pos hl]
          by_cases hr : (longestMatch A B b2j eqv quad).astart +
                (longestMatch A B b2j eqv quad).length < quad.Aend ∧
              (longestMatch A B b2j eqv quad).bstart +
                (longestMatch A B b2j eqv quad).length < quad.Bend
          · rw [if_pos hr]
            refine ih _ _ ?_ ?_
            · intro q hq2
              rcases List.mem_cons.mp hq2 with h | h
              · subst h; rw [quadWF_mk]; omega
              · rcases List.mem_cons.mp h with h' | h'
                · subst h'; rw [quadWF_mk]; omega
                · exact hwfrest q h'
            · rw [measureQs_cons, measureQs_cons, measureQ_mk, measureQ_mk]
              simp only [measureQ] at hm
              omega
          · rw [if_neg hr]
            refine ih _ _ ?_ ?_
            · intro q hq2
              rcases List.mem_cons.mp hq2 with h | h
              · subst h; rw [quadWF_mk]; omega
              · exact hwfrest q h
            · rw [measureQs_cons, measureQ_mk]
              simp only [measureQ] at hm
              omega
        · rw [if_neg hl]
          by_cases hr : (longestMatch A B b2j eqv quad).astart +
                (longestMatch A B b2j eqv quad).length < quad.Aend ∧
              (longestMatch A B b2j eqv quad).bstart +
                (longestMatch A B b2j eqv quad).length < quad.Bend
          · rw [if_pos hr]
            refine ih _ _ ?_ ?_
            · intro q hq2
              rcases List.mem_cons.mp hq2 with h | h
              · subst h; rw [quadWF_mk]; omega
              · exact hwfrest q h
            · rw [measureQs_cons, measureQ_mk]
              simp only [measureQ] at hm
              omega
          · rw [if_neg hr]
            refine ih _ _ hwfrest ?_
            simp only [measureQ] at hm
            omega

/-- Invariant of the worklist: whenever the loop completes, the
recorded matches are positive, in bounds, covering equal elements, and
pairwise ordered (one entirely before the other in both dimensions). -/
theorem runQueue_inv [Inhabited α] (A B : List α)
    (b2j : α → Option (List Nat)) (eqv : α → α → Bool)
    (Hok : B2jOk B b2j eqv) :
    ∀ (fuel : Nat) (queue : List Quad) (acc out : List Match),
      runQueue A B b2j eqv fuel queue acc = some out →
      (∀ q ∈ queue, QuadOK A.length B.length q) →
      (∀ m ∈ acc, MatchOK A B eqv m) →
      (∀ m ∈ acc, ∀ q ∈ queue, SepMQ m q) →
      List.Pairwise SymQB queue →
      List.Pairwise SymBefore acc →
      (∀ m ∈ out, MatchOK A B eqv m) ∧ List.Pairwise SymBefore out := by
  intro fuel
  induction fuel with
  | zero =>
    intro queue acc out hrun hq hacc hsep hpq hpa
    cases queue with
    | nil =>
      rw [runQueue] at hrun
      cases hrun
      exact ⟨hacc, hpa⟩
    | cons q rest => rw [runQueue] at hrun; cases hrun
  | succ f ih =>
    intro queue acc out hrun hq hacc hsep hpq hpa
    cases queue with
    | nil =>
      rw [runQueue] at hrun
      cases hrun
      exact ⟨hacc, hpa⟩
    | cons quad rest =>
      simp only [runQueue] at hrun
      have hqOK := hq quad (List.mem_cons_self quad rest)
      obtain ⟨c1, c2, c3, c4, crun⟩ := longestMatch_spec A B b2j eqv Hok
        quad hqOK.1.1 hqOK.1.2
      have hqrest : ∀ q ∈ rest, QuadOK A.length B.length q :=
        fun q h => hq q (List.mem_cons_of_mem quad h)
      have hseprest : ∀ m ∈ acc, ∀ q ∈ rest, SepMQ m q :=
        fun m hm q h => hsep m hm q (List.mem_cons_of_mem quad h)
      have hpqrest : List.Pairwise SymQB rest :=
        (List.pairwise_cons.mp hpq).2
      have hpqhead : ∀ q ∈ rest, SymQB quad q :=
        (List.pairwise_cons.mp hpq).1
      by_cases hlen : (longestMatch A B b2j eqv quad).length = 0
      · rw [if_pos hlen] at hrun
        exact ih rest acc out hrun hqrest hacc hseprest hpqrest hpa
      · rw [if_neg hlen] at hrun
        set lm := longestMatch A B b2j eqv quad with hlm
        set lq : Quad := ⟨quad.Astart, lm.astart, quad.Bstart, lm.bstart⟩
          with hlq
        set rq : Quad := ⟨lm.astart + lm.length, quad.Aend,
          lm.bstart + lm.length, quad.Bend⟩ with hrq
        -- the new accumulator
        have hPlm : MatchOK A B eqv lm := by
          refine ⟨by omega, ?_, ?_, crun⟩
          · have := hqOK.2.1; omega
          · have := hqOK.2.2; omega
        have haccP : ∀ m ∈ acc ++ [lm], MatchOK A B eqv m := by
          intro m hm
          rcases List.mem_append.mp hm with h | h
          · exact hacc m h
          · rw [List.mem_singleton.mp h]; exact hPlm
        have hpa' : List.Pairwise SymBefore (acc ++ [lm]) := by
          rw [List.pairwise_append]
          refine ⟨hpa, List.pairwise_singleton _ _, ?_⟩
          intro m hm n hn
          rw [List.mem_singleton.mp hn]
          rcases hsep m hm quad (List.mem_cons_self quad rest) with hb | ha
          · exact Or.inl ⟨by have := hb.1; omega, by have := hb.2; omega⟩
          · exact Or.inr ⟨by have := ha.1; omega, by have := ha.2; omega⟩
        -- window properties
        have hQlq : QuadOK A.length B.length lq := by
          refine ⟨⟨c1, c3⟩, ?_, ?_⟩
          · show lm.astart ≤ A.length
            have := hqOK.2.1; omega
          · show lm.bstart ≤ B.length
            have := hqOK.2.2; omega
        have hQrq : QuadOK A.length B.length rq := by
          refine ⟨⟨c2, c4⟩, hqOK.2.1, hqOK.2.2⟩
        have hqb_lq_rest : ∀ q ∈ rest, SymQB lq q := by
          intro q h
          rcases hpqhead q h with hb | ha
          · exact Or.inl ⟨by show lm.astart ≤ q.Astart
                             have := hb.1; omega,
                          by show lm.bstart ≤ q.Bstart
                             have := hb.2; omega⟩
          · exact Or.inr ⟨by show q.Aend ≤ quad.Astart; exact ha.1,
                          by show q.Bend ≤ quad.Bstart; exact ha.2⟩
        have hqb_rq_rest : ∀ q ∈ rest, SymQB rq q := by
          intro q h
          rcases hpqhead q h with hb | ha
          · exact Or.inl ⟨by show quad.Aend ≤ q.Astart; exact hb.1,
                          by show quad.Bend ≤ q.Bstart; exact hb.2⟩
          · exact Or.inr ⟨by show q.Aend ≤ lm.astart + lm.length
                             have := ha.1; omega,
                          by show q.Bend ≤ lm.bstart + lm.length
                             have := ha.2; omega⟩
        have hLR : SymQB lq rq :=
          Or.inl ⟨by show lm.astart ≤ lm.astart + lm.length; omega,
                  by show lm.bstart ≤ lm.bstart + lm.length; omega⟩
        -- separation of the new accumulator from the new windows
        have hSlq : ∀ m ∈ acc ++ [lm], SepMQ m lq := by
          intro m hm
          rcases List.mem_append.mp hm with h | h
          · rcases hsep m h quad (List.mem_cons_self quad rest) with hb | ha
            · exact Or.inl ⟨hb.1, hb.2⟩
            · refine Or.inr ⟨?_, ?_⟩
              · show lm.astart ≤ m.astart
                have := ha.1; omega
              · show lm.bstart ≤ m.bstart
                have := ha.2; omega
          · rw [List.mem_singleton.mp h]
            exact Or.inr ⟨le_refl _, le_refl _⟩
        have hSrq : ∀ m ∈ acc ++ [lm], SepMQ m rq := by
          intro m hm
          rcases List.mem_append.mp hm with h | h
          · rcases hsep m h quad (List.mem_cons_self quad rest) with hb | ha
            · refine Or.inl ⟨?_, ?_⟩
              · show m.astart + m.length ≤ lm.astart + lm.length
                have := hb.1; omega
              · show m.bstart + m.length ≤ lm.bstart + lm.length
                have := hb.2; omega
            · exact Or.inr ⟨ha.1, ha.2⟩
          · rw [List.mem_singleton.mp h]
            exact Or.inl ⟨le_refl _, le_refl _⟩
        have hSrest : ∀ m ∈ acc ++ [lm], ∀ q ∈ rest, SepMQ m q := by
          intro m hm q hqm
          rcases List.mem_append.mp hm with h | h
          · exact hseprest m h q hqm
          · rw [List.mem_singleton.mp h]
            rcases hpqhead q hqm with hb | ha
            · exact Or.inl ⟨by have := hb.1; omega,
                by have := hb.2; omega⟩
            · exact Or.inr ⟨by have := ha.1; omega,
                by have := ha.2; omega⟩
        -- assemble, by cases on which sub-windows were pushed
        by_cases hcl : quad.Astart < lm.astart ∧ quad.Bstart < lm.bstart
        · rw [if_pos hcl] at hrun
          by_cases hcr : lm.astart + lm.length < quad.Aend ∧
              lm.bstart + lm.length < quad.Bend
          · rw [if_pos hcr] at hrun
            refine ih _ _ out hrun ?_ haccP ?_ ?_ hpa'
            · intro q hh
              rcases List.mem_cons.mp hh with h | h
              · rw [h]; exact hQrq
              · rcases List.mem_cons.mp h with h' | h'
                · rw [h']; exact hQlq
                · exact hqrest q h'
            · intro m hm q hh
              rcases List.mem_cons.mp hh with h | h
              · rw [h]; exact hSrq m hm
              · rcases List.mem_cons.mp h with h' | h'
                · rw [h']; exact hSlq m hm
                · exact hSrest m hm q h'
            · refine List.Pairwise.cons ?_ (List.Pairwise.cons ?_ hpqrest)
              · intro q hh
                rcases List.mem_cons.mp hh with h | h
                · rw [h]
                  rcases hLR with h2 | h2
                  · exact Or.inr h2
                  · exact Or.inl h2
                · exact hqb_rq_rest q h
              · exact hqb_lq_rest
          · rw [if_neg hcr] at hrun
            refine ih _ _ out hrun ?_ haccP ?_ ?_ hpa'
            · intro q hh
              rcases List.mem_cons.mp hh with h | h
              · rw [h]; exact hQlq
              · exact hqrest q h
            · intro m hm q hh
              rcases List.mem_cons.mp hh with h | h
              · rw [h]; exact hSlq m hm
              · exact hSrest m hm q h
            · exact List.Pairwise.cons hqb_lq_rest hpqrest
        · rw [if_neg hcl] at hrun
          by_cases hcr : lm.astart + lm.length < quad.Aend ∧
              lm.bstart + lm.length < quad.Bend
          · rw [if_pos hcr] at hrun
            refine ih _ _ out hrun ?_ haccP ?_ ?_ hpa'
            · intro q hh
              rcases List.mem_cons.mp hh with h | h
              · rw [h]; exact hQrq
              · exact hqrest q h
            · intro m hm q hh
              rcases List.mem_cons.mp hh with h | h
              · rw [h]; exact hSrq m hm
              · exact hSrest m hm q h
            · exact List.Pairwise.cons hqb_rq_rest hpqrest
          · rw [if_neg hcr] at hrun
            exact ih _ _ out hrun hqrest haccP hSrest hpqrest hpa'

/-- C8: the iterative worklist in matches() terminates for every pair
of input sequences, in both variants: the loop, run on fuel
len(A) + len(B) + 1, never exhausts it (every pushed sub-window
strictly shrinks and zero-dimension windows are never pushed). -/
theorem C8_worklist_terminates {α : Type} [DecidableEq α] [Inhabited α]
    (a b : List α) (keyfn : α → String) :
    (runQueue a b (Diff.new a b).lk beqOf (a.length + b.length + 1)
      [⟨0, a.length, 0, b.length⟩] []).isSome = true ∧
    (runQueue a b (DiffKeyFn.new a b keyfn).lk
      (DiffKeyFn.new a b keyfn).eqv (a.length + b.length + 1)
      [⟨0, a.length, 0, b.length⟩] []).isSome = true := by
  constructor
  · refine runQueue_some a b _ _ (lk_sound_direct a b) _ _ [] ?_ ?_
    · intro q hq
      rcases List.mem_cons.mp hq with h | h
      · subst h; rw [quadWF_mk]; omega
      · simp at h
    · simp [measureQs, measureQ_mk]
  · refine runQueue_some a b _ _ (lk_sound_keyed a b keyfn) _ _ [] ?_ ?_
    · intro q hq
      rcases List.mem_cons.mp hq with h | h
      · subst h; rw [quadWF_mk]; omega
      · simp at h
    · simp [measureQs, measureQ_mk]

/-! ## Lemmas: the normalizer -/

theorem matchLe_iff (m n : Match) :
    matchLe m n = true ↔
      (m.astart < n.astart ∨ (m.astart = n.astart ∧
        (m.bstart < n.bstart ∨ (m.bstart = n.bstart ∧
          m.length ≤ n.length)))) := by
  rw [matchLe]
  split_ifs with h1 h2 <;> simp <;> omega

theorem matchLe_total (m n : Match) :
    matchLe m n = true ∨ matchLe n m = true := by
  rw [matchLe_iff, matchLe_iff]
  omega

theorem mem_insertSorted (m x : Match) :
    ∀ (l : List Match), x ∈ insertSorted m l → x = m ∨ x ∈ l := by
  intro l
  induction l with
  | nil => intro h; simpa [insertSorted] using h
  | cons n rest ih =>
    intro h
    rw [insertSorted] at h
    by_cases hc : matchLe m n = true
    · rw [if_pos hc] at h
      rcases List.mem_cons.mp h with h' | h'
      · exact Or.inl h'
      · exact Or.inr h'
    · rw [if_neg hc] at h
      rcases List.mem_cons.mp h with h' | h'
      · exact Or.inr (h' ▸ List.mem_cons_self n rest)
      · rcases ih h' with h2 | h2
        · exact Or.inl h2
        · exact Or.inr (List.mem_cons_of_mem n h2)

theorem perm_insertSorted (m : Match) :
    ∀ (l : List Match), List.Perm (insertSorted m l) (m :: l) := by
  intro l
  induction l with
  | nil => rw [insertSorted]
  | cons n rest ih =>
    rw [insertSorted]
    by_cases hc : matchLe m n = true
    · rw [if_pos hc]
    · rw [if_neg hc]
      exact (List.Perm.cons n ih).trans (List.Perm.swap m n rest)

theorem perm_sortMatches :
    ∀ (l : List Match), List.Perm (sortMatches l) l := by
  intro l
  induction l with
  | nil => rw [sortMatches]
  | cons m rest ih =>
    rw [sortMatches]
    exact (perm_insertSorted m (sortMatches rest)).trans
      (List.Perm.cons m ih)

theorem pairwise_insertSorted (m : Match) :
    ∀ (l : List Match),
      List.Pairwise (fun a b => matchLe a b = true) l →
      List.Pairwise (fun a b => matchLe a b = true) (insertSorted m l) := by
  intro l
  induction l with
  | nil =>
    intro _
    rw [insertSorted]
    exact List.pairwise_singleton _ _
  | cons n rest ih =>
    intro hp
    obtain ⟨hn, hrest⟩ := List.pairwise_cons.mp hp
    rw [insertSorted]
    by_cases hc : matchLe m n = true
    · rw [if_pos hc]
      refine List.Pairwise.cons ?_ hp
      intro x hx
      rcases List.mem_cons.mp hx with h | h
      · rw [h]; exact hc
      · have h2 := hn x h
        rw [matchLe_iff] at hc h2 ⊢
        omega
    · rw [if_neg hc]
      refine List.Pairwise.cons ?_ (ih hrest)
      intro x hx
      rcases mem_insertSorted m x rest hx with h | h
      · rw [h]
        rcases matchLe_total m n with h2 | h2
        · exact absurd h2 hc
        · exact h2
      · exact hn x h

theorem pairwise_sortMatches :
    ∀ (l : List Match),
      List.Pairwise (fun a b => matchLe a b = true) (sortMatches l) := by
  intro l
  induction l with
  | nil => rw [sortMatches]; exact List.Pairwise.nil
  | cons m rest ih =>
    rw [sortMatches]
    exact pairwise_insertSorted m (sortMatches rest) ih

theorem symBefore_symm : Symmetric SymBefore := by
  intro m n h
  rcases h with h | h
  · exact Or.inr h
  · exact Or.inl h

/-- After sorting, the pairwise symmetric ordering resolves into the
sorted direction. -/
theorem pairwise_before_sorted (raw : List Match)
    (hpa : List.Pairwise SymBefore raw)
    (hlen : ∀ m ∈ raw, 1 ≤ m.length) :
    List.Pairwise Before (sortMatches raw) := by
  have hperm := perm_sortMatches raw
  have hpa' : List.Pairwise SymBefore (sortMatches raw) :=
    ((hperm.pairwise_iff (fun h => symBefore_symm h)).mpr hpa)
  have hcomb := List.Pairwise.and hpa' (pairwise_sortMatches raw)
  refine hcomb.imp_of_mem ?_
  intro m n hm hn h
  obtain ⟨hsym, hle⟩ := h
  have h1 : 1 ≤ m.length := hlen m (hperm.mem_iff.mp hm)
  have h2 : 1 ≤ n.length := hlen n (hperm.mem_iff.mp hn)
  rcases hsym with h3 | h3
  · exact h3
  · obtain ⟨h4, h5⟩ := h3
    rw [matchLe_iff] at hle
    exact ⟨by omega, by omega⟩

theorem chain_weaken : ∀ (l : List Match) (a b a' b' : Nat),
    a' ≤ a → b' ≤ b → Chain a b l → Chain a' b' l := by
  intro l
  cases l with
  | nil => intro _ _ _ _ _ _ _; trivial
  | cons m rest =>
    intro a b a' b' ha hb hc
    obtain ⟨h1, h2, h3⟩ := hc
    exact ⟨by omega, by omega, h3⟩

theorem chain_of_pairwise :
    ∀ (l : List Match), List.Pairwise Before l →
      ∀ (a b : Nat), (∀ m ∈ l, a ≤ m.astart ∧ b ≤ m.bstart) →
      Chain a b l := by
  intro l
  induction l with
  | nil => intro _ _ _ _; trivial
  | cons m rest ih =>
    intro hp a b hlb
    obtain ⟨hm, hrest⟩ := List.pairwise_cons.mp hp
    have h0 := hlb m (List.mem_cons_self m rest)
    refine ⟨h0.1, h0.2, ?_⟩
    refine ih hrest _ _ ?_
    intro n hn
    exact ⟨(hm n hn).1, (hm n hn).2⟩

/-- The coalescing walk preserves the chain structure, element
equality, in-bounds ends, and positive lengths. -/
theorem coalesceAux_ok [Inhabited α] (A B : List α) (eqv : α → α → Bool) :
    ∀ (ms : List Match) (aS bS len : Nat),
      Chain (aS + len) (bS + len) ms →
      (∀ m ∈ ms, MatchOK A B eqv m) →
      (∀ t < len, eqv (A.getI (aS + t)) (B.getI (bS + t)) = true) →
      (len ≠ 0 → aS + len ≤ A.length ∧ bS + len ≤ B.length) →
      Chain aS bS (coalesceAux aS bS len ms) ∧
      ∀ m' ∈ coalesceAux aS bS len ms, MatchOK A B eqv m' := by
  intro ms
  induction ms with
  | nil =>
    intro aS bS len hch hok hrun hbd
    rw [coalesceAux]
    by_cases h0 : len = 0
    · rw [if_pos h0]
      exact ⟨trivial, by intro m' hm'; simp at hm'⟩
    · rw [if_neg h0]
      refine ⟨⟨le_refl _, le_refl _, trivial⟩, ?_⟩
      intro m' hm'
      rw [List.mem_singleton.mp hm']
      exact ⟨by show 1 ≤ len; omega, (hbd h0).1, (hbd h0).2, hrun⟩
  | cons m rest ih =>
    intro aS bS len hch hok hrun hbd
    obtain ⟨hc1, hc2, hc3⟩ := hch
    have hmok := hok m (List.mem_cons_self m rest)
    have hokrest : ∀ n ∈ rest, MatchOK A B eqv n :=
      fun n hn => hok n (List.mem_cons_of_mem m hn)
    rw [coalesceAux]
    by_cases hadj : aS + len = m.astart ∧ bS + len = m.bstart
    · rw [if_pos hadj]
      have hch' : Chain (aS + (len + m.length)) (bS + (len + m.length))
          rest := by
        refine chain_weaken rest _ _ _ _ ?_ ?_ hc3 <;> omega
      have hrun' : ∀ t < len + m.length,
          eqv (A.getI (aS + t)) (B.getI (bS + t)) = true := by
        intro t ht
        by_cases htl : t < len
        · exact hrun t htl
        · have e1 : aS + t = m.astart + (t - len) := by omega
          have e2 : bS + t = m.bstart + (t - len) := by omega
          rw [e1, e2]
          exact hmok.2.2.2 (t - len) (by omega)
      have hbd' : len + m.length ≠ 0 →
          aS + (len + m.length) ≤ A.length ∧
          bS + (len + m.length) ≤ B.length := by
        intro _
        have := hmok.2.1
        have := hmok.2.2.1
        constructor <;> omega
      exact ih aS bS (len + m.length) hch' hokrest hrun' hbd'
    · rw [if_neg hadj]
      have hch' : Chain (m.astart + m.length) (m.bstart + m.length)
          rest := hc3
      have hrun' : ∀ t < m.length,
          eqv (A.getI (m.astart + t)) (B.getI (m.bstart + t)) = true :=
        hmok.2.2.2
      have hbd' : m.length ≠ 0 →
          m.astart + m.length ≤ A.length ∧
          m.bstart + m.length ≤ B.length :=
        fun _ => ⟨hmok.2.1, hmok.2.2.1⟩
      obtain ⟨ich, iok⟩ := ih m.astart m.bstart m.length hch' hokrest
        hrun' hbd'
      by_cases h0 : len = 0
      · rw [if_pos h0]
        rw [List.nil_append]
        refine ⟨chain_weaken _ _ _ _ _ (by omega) (by omega) ich, iok⟩
      · rw [if_neg h0]
        refine ⟨⟨le_refl _, le_refl _,
          chain_weaken _ _ _ _ _ (by show aS + len ≤ m.astart; omega)
            (by show bS + len ≤ m.bstart; omega) ich⟩, ?_⟩
        intro m' hm'
        rcases List.mem_cons.mp hm' with h | h
        · rw [h]
          exact ⟨by show 1 ≤ len; omega, (hbd h0).1, (hbd h0).2, hrun⟩
        · exact iok m' h

theorem chain_append_sentinel (la lb : Nat) :
    ∀ (l : List Match) (a b : Nat), Chain a b l →
      (∀ m ∈ l, m.astart + m.length ≤ la ∧ m.bstart + m.length ≤ lb) →
      a ≤ la → b ≤ lb →
      Chain a b (l ++ [⟨la, lb, 0⟩]) := by
  intro l
  induction l with
  | nil =>
    intro a b _ _ ha hb
    exact ⟨ha, hb, trivial⟩
  | cons m rest ih =>
    intro a b hch hbd ha hb
    obtain ⟨h1, h2, h3⟩ := hch
    have hm := hbd m (List.mem_cons_self m rest)
    exact ⟨h1, h2, ih _ _ h3
      (fun n hn => hbd n (List.mem_cons_of_mem m hn)) hm.1 hm.2⟩

theorem endA_append_single (m : Match) :
    ∀ (l : List Match) (a : Nat),
      endA a (l ++ [m]) = m.astart + m.length := by
  intro l
  induction l with
  | nil => intro a; rfl
  | cons n rest ih => intro a; rw [List.cons_append, endA, ih]

theorem endB_append_single (m : Match) :
    ∀ (l : List Match) (b : Nat),
      endB b (l ++ [m]) = m.bstart + m.length := by
  intro l
  induction l with
  | nil => intro b; rfl
  | cons n rest ih => intro b; rw [List.cons_append, endB, ih]

/-- Full specification of the normalized match list: it is a chain from
(0,0) whose members cover equal elements and end inside both sequences,
and it ends exactly at (len(A), len(B)). -/
theorem matchesOf_spec [Inhabited α] (A B : List α)
    (b2j : α → Option (List Nat)) (eqv : α → α → Bool)
    (Hok : B2jOk B b2j eqv) :
    Chain 0 0 (matchesOf A B b2j eqv) ∧
    (∀ m ∈ matchesOf A B b2j eqv, MatchRun A B eqv m ∧
      m.astart + m.length ≤ A.length ∧ m.bstart + m.length ≤ B.length) ∧
    endA 0 (matchesOf A B b2j eqv) = A.length ∧
    endB 0 (matchesOf A B b2j eqv) = B.length := by
  have hinitWF : ∀ q ∈ [(⟨0, A.length, 0, B.length⟩ : Quad)],
      QuadOK A.length B.length q := by
    intro q hq
    rw [List.mem_singleton.mp hq]
    exact ⟨⟨Nat.zero_le _, Nat.zero_le _⟩, le_refl _, le_refl _⟩
  have hsome := runQueue_some A B b2j eqv Hok (A.length + B.length + 1)
    [⟨0, A.length, 0, B.length⟩] [] (fun q hq => (hinitWF q hq).1)
    (by simp [measureQs, measureQ_mk])
  obtain ⟨raw, hraw⟩ := Option.isSome_iff_exists.mp hsome
  obtain ⟨hrawOK, hrawPB⟩ := runQueue_inv A B b2j eqv Hok
    (A.length + B.length + 1) [⟨0, A.length, 0, B.length⟩] [] raw hraw
    hinitWF (by intro m hm; simp at hm) (by intro m hm; simp at hm)
    (List.pairwise_singleton _ _) List.Pairwise.nil
  have hperm := perm_sortMatches raw
  have hsortedOK : ∀ m ∈ sortMatches raw, MatchOK A B eqv m :=
    fun m hm => hrawOK m (hperm.mem_iff.mp hm)
  have hpb : List.Pairwise Before (sortMatches raw) :=
    pairwise_before_sorted raw hrawPB (fun m hm => (hrawOK m hm).1)
  have hchain : Chain 0 0 (sortMatches raw) :=
    chain_of_pairwise (sortMatches raw) hpb 0 0
      (fun m _ => ⟨Nat.zero_le _, Nat.zero_le _⟩)
  obtain ⟨hcch, hcok⟩ := coalesceAux_ok A B eqv (sortMatches raw) 0 0 0
    (by simpa using hchain) hsortedOK (by intro t ht; omega)
    (by intro h; exact absurd rfl h)
  have hfinal : Chain 0 0 (coalesceAux 0 0 0 (sortMatches raw) ++
      [⟨A.length, B.length, 0⟩]) := by
    refine chain_append_sentinel A.length B.length _ 0 0 hcch ?_
      (Nat.zero_le _) (Nat.zero_le _)
    intro m hm
    exact ⟨(hcok m hm).2.1, (hcok m hm).2.2.1⟩
  have hmem : ∀ m ∈ coalesceAux 0 0 0 (sortMatches raw) ++
      [⟨A.length, B.length, 0⟩], MatchRun A B eqv m ∧
      m.astart + m.length ≤ A.length ∧
      m.bstart + m.length ≤ B.length := by
    intro m hm
    rcases List.mem_append.mp hm with h | h
    · exact ⟨(hcok m h).2.2.2, (hcok m h).2.1, (hcok m h).2.2.1⟩
    · rw [List.mem_singleton.mp h]
      refine ⟨?_, by show A.length + 0 ≤ A.length; omega,
        by show B.length + 0 ≤ B.length; omega⟩
      intro t ht
      simp at ht
  have hmof : matchesOf A B b2j eqv =
      coalesceAux 0 0 0 (sortMatches raw) ++
        [⟨A.length, B.length, 0⟩] := by
    rw [matchesOf, hraw]
    rfl
  rw [hmof]
  exact ⟨hfinal, hmem, endA_append_single _ _ _, endB_append_single _ _ _⟩

/-! ## Lemmas: the span builder -/

theorem spansAux_spec [Inhabited α] (A B : List α) (eqv : α → α → Bool) :
    ∀ (ms : List Match) (i j : Nat),
      Chain i j ms →
      (∀ m ∈ ms, MatchRun A B eqv m) →
      Contig i j (spansAux i j ms) ∧
      endsAt i j (spansAux i j ms) = (endA i ms, endB j ms) ∧
      ∀ s ∈ spansAux i j ms, SpanShapeB A B eqv s := by
  intro ms
  induction ms with
  | nil =>
    intro i j _ _
    refine ⟨trivial, rfl, ?_⟩
    intro s hs
    simp [spansAux] at hs
  | cons m rest ih =>
    intro i j hch hrun
    obtain ⟨h1, h2, h3⟩ := hch
    have hrunm := hrun m (List.mem_cons_self m rest)
    obtain ⟨ic, ie, ish⟩ := ih (m.astart + m.length) (m.bstart + m.length)
      h3 (fun n hn => hrun n (List.mem_cons_of_mem m hn))
    have heqshape : m.length ≠ 0 →
        SpanShapeB A B eqv ⟨.Equal, m.astart, m.astart + m.length,
          m.bstart, m.bstart + m.length⟩ := by
      intro hl
      refine ⟨?_, ?_, ?_⟩
      · show m.astart + m.length - m.astart =
          m.bstart + m.length - m.bstart
        omega
      · show m.astart < m.astart + m.length
        omega
      · intro t ht
        have ht2 : m.astart + t < m.astart + m.length := ht
        exact hrunm t (by omega)
    by_cases hA : i < m.astart
    · by_cases hB : j < m.bstart
      · -- Replace gap
        have hform : spansAux i j (m :: rest) =
            ⟨.Replace, i, m.astart, j, m.bstart⟩ ::
              ((if m.length = 0 then [] else
                [⟨.Equal, m.astart, m.astart + m.length, m.bstart,
                  m.bstart + m.length⟩]) ++
                spansAux (m.astart + m.length) (m.bstart + m.length)
                  rest) := by
          simp only [spansAux, if_pos hA, if_pos hB]
          rw [if_neg (by decide : ¬(Tag.Replace = Tag.Equal))]
          rfl
        rw [hform]
        by_cases hl : m.length = 0
        · rw [if_pos hl, List.nil_append]
          refine ⟨⟨rfl, rfl, by show i ≤ m.astart; omega,
            by show j ≤ m.bstart; omega, ?_⟩, ?_, ?_⟩
          · show Contig m.astart m.bstart
              (spansAux (m.astart + m.length) (m.bstart + m.length) rest)
            simpa [hl] using ic
          · show endsAt m.astart m.bstart
              (spansAux (m.astart + m.length) (m.bstart + m.length) rest) =
              (endA i (m :: rest), endB j (m :: rest))
            rw [endA, endB]
            simpa [hl] using ie
          · intro s hs
            rcases List.mem_cons.mp hs with h | h
            · rw [h]
              exact ⟨hA, hB⟩
            · exact ish s h
        · rw [if_neg hl, List.cons_append]
          refine ⟨⟨rfl, rfl, by show i ≤ m.astart; omega,
            by show j ≤ m.bstart; omega,
            ⟨rfl, rfl, by show m.astart ≤ m.astart + m.length; omega,
              by show m.bstart ≤ m.bstart + m.length; omega, ic⟩⟩,
            by rw [endsAt, endsAt, endA, endB]; exact ie, ?_⟩
          intro s hs
          rcases List.mem_cons.mp hs with h | h
          · rw [h]; exact ⟨hA, hB⟩
          · rcases List.mem_cons.mp h with h' | h'
            · rw [h']; exact heqshape hl
            · exact ish s h'
      · -- Delete gap (the B-range is empty: j = m.bstart)
        have hjb : j = m.bstart := by omega
        have hform : spansAux i j (m :: rest) =
            ⟨.Delete, i, m.astart, j, m.bstart⟩ ::
              ((if m.length = 0 then [] else
                [⟨.Equal, m.astart, m.astart + m.length, m.bstart,
                  m.bstart + m.length⟩]) ++
                spansAux (m.astart + m.length) (m.bstart + m.length)
                  rest) := by
          simp only [spansAux, if_pos hA, if_neg hB]
          rw [if_neg (by decide : ¬(Tag.Delete = Tag.Equal))]
          rfl
        rw [hform]
        by_cases hl : m.length = 0
        · rw [if_pos hl, List.nil_append]
          refine ⟨⟨rfl, rfl, by show i ≤ m.astart; omega,
            by show j ≤ m.bstart; omega, ?_⟩, ?_, ?_⟩
          · show Contig m.astart m.bstart
              (spansAux (m.astart + m.length) (m.bstart + m.length) rest)
            simpa [hl] using ic
          · show endsAt m.astart m.bstart
              (spansAux (m.astart + m.length) (m.bstart + m.length) rest) =
              (endA i (m :: rest), endB j (m :: rest))
            rw [endA, endB]
            simpa [hl] using ie
          · intro s hs
            rcases List.mem_cons.mp hs with h | h
            · rw [h]
              exact hjb
            · exact ish s h
        · rw [if_neg hl, List.cons_append]
          refine ⟨⟨rfl, rfl, by show i ≤ m.astart; omega,
            by show j ≤ m.bstart; omega,
            ⟨rfl, rfl, by show m.astart ≤ m.astart + m.length; omega,
              by show m.bstart ≤ m.bstart + m.length; omega, ic⟩⟩,
            by rw [endsAt, endsAt, endA, endB]; exact ie, ?_⟩
          intro s hs
          rcases List.mem_cons.mp hs with h | h
          · rw [h]; exact hjb
          · rcases List.mem_cons.mp h with h' | h'
            · rw [h']; exact heqshape hl
            · exact ish s h'
    · have hia : i = m.astart := by omega
      by_cases hB : j < m.bstart
      · -- Insert gap (the A-range is empty: i = m.astart)
        have hform : spansAux i j (m :: rest) =
            ⟨.Insert, i, m.astart, j, m.bstart⟩ ::
              ((if m.length = 0 then [] else
                [⟨.Equal, m.astart, m.astart + m.length, m.bstart,
                  m.bstart + m.length⟩]) ++
                spansAux (m.astart + m.length) (m.bstart + m.length)
                  rest) := by
          simp only [spansAux, if_neg hA, if_pos hB]
          rw [if_neg (by decide : ¬(Tag.Insert = Tag.Equal))]
          rfl
        rw [hform]
        by_cases hl : m.length = 0
        · rw [if_pos hl, List.nil_append]
          refine ⟨⟨rfl, rfl, by show i ≤ m.astart; omega,
            by show j ≤ m.bstart; omega, ?_⟩, ?_, ?_⟩
          · show Contig m.astart m.bstart
              (spansAux (m.astart + m.length) (m.bstart + m.length) rest)
            simpa [hl] using ic
          · show endsAt m.astart m.bstart
              (spansAux (m.astart + m.length) (m.bstart + m.length) rest) =
              (endA i (m :: rest), endB j (m :: rest))
            rw [endA, endB]
            simpa [hl] using ie
          · intro s hs
            rcases List.mem_cons.mp hs with h | h
            · rw [h]
              exact hia
            · exact ish s h
        · rw [if_neg hl, List.cons_append]
          refine ⟨⟨rfl, rfl, by show i ≤ m.astart; omega,
            by show j ≤ m.bstart; omega,
            ⟨rfl, rfl, by show m.astart ≤ m.astart + m.length; omega,
              by show m.bstart ≤ m.bstart + m.length; omega, ic⟩⟩,
            by rw [endsAt, endsAt, endA, endB]; exact ie, ?_⟩
          intro s hs
          rcases List.mem_cons.mp hs with h | h
          · rw [h]; exact hia
          · rcases List.mem_cons.mp h with h' | h'
            · rw [h']; exact heqshape hl
            · exact ish s h'
      · -- no gap: cursors sit exactly at the match
        have hjb : j = m.bstart := by omega
        have hform : spansAux i j (m :: rest) =
            (if m.length = 0 then [] else
              [⟨.Equal, m.astart, m.astart + m.length, m.bstart,
                m.bstart + m.length⟩]) ++
              spansAux (m.astart + m.length) (m.bstart + m.length)
                rest := by
          simp [spansAux, hA, hB]
        rw [hform]
        by_cases hl : m.length = 0
        · rw [if_pos hl, List.nil_append]
          refine ⟨?_, ?_, fun s hs => ish s hs⟩
          · show Contig i j
              (spansAux (m.astart + m.length) (m.bstart + m.length) rest)
            rw [hia, hjb]
            simpa [hl] using ic
          · show endsAt i j
              (spansAux (m.astart + m.length) (m.bstart + m.length) rest) =
              (endA i (m :: rest), endB j (m :: rest))
            rw [endA, endB, hia, hjb]
            simpa [hl] using ie
        · rw [if_neg hl, List.cons_append, List.nil_append]
          rw [hia, hjb]
          refine ⟨⟨rfl, rfl,
            by show m.astart ≤ m.astart + m.length; omega,
            by show m.bstart ≤ m.bstart + m.length; omega, ic⟩,
            by rw [endsAt, endA, endB]; exact ie, ?_⟩
          intro s hs
          rcases List.mem_cons.mp hs with h | h
          · rw [h]; exact heqshape hl
          · exact ish s h

theorem contig_endsAt_ge :
    ∀ (l : List Span) (i j : Nat), Contig i j l →
      i ≤ (endsAt i j l).1 ∧ j ≤ (endsAt i j l).2 := by
  intro l
  induction l with
  | nil => intro i j _; exact ⟨le_refl _, le_refl _⟩
  | cons s rest ih =>
    intro i j hc
    obtain ⟨h1, h2, h3, h4, h5⟩ := hc
    obtain ⟨g1, g2⟩ := ih s.Aend s.Bend h5
    rw [endsAt]
    exact ⟨by omega, by omega⟩

theorem contig_ends_le :
    ∀ (l : List Span) (i j : Nat), Contig i j l →
      ∀ s ∈ l, s.Aend ≤ (endsAt i j l).1 ∧ s.Bend ≤ (endsAt i j l).2 := by
  intro l
  induction l with
  | nil => intro i j _ s hs; simp at hs
  | cons s rest ih =>
    intro i j hc x hx
    obtain ⟨h1, h2, h3, h4, h5⟩ := hc
    rw [endsAt]
    rcases List.mem_cons.mp hx with h | h
    · obtain ⟨g1, g2⟩ := contig_endsAt_ge rest s.Aend s.Bend h5
      rw [h]
      exact ⟨g1, g2⟩
    · exact ih s.Aend s.Bend h5 x h

theorem drop_take_drop (A : List α) (i e : Nat) (h : i ≤ e) :
    (A.drop i).take (e - i) ++ A.drop e = A.drop i := by
  have hd : A.drop e = (A.drop i).drop (e - i) := by
    rw [List.drop_drop]
    congr 1
    omega
  rw [hd, List.take_append_drop]

theorem slices_join_A (A : List α) :
    ∀ (l : List Span) (i j : Nat), Contig i j l →
      (endsAt i j l).1 = A.length →
      (l.map (fun s =>
        if s.Aend ≤ A.length then sliceList A s.Astart s.Aend
        else [])).flatten = A.drop i := by
  intro l
  induction l with
  | nil =>
    intro i j _ hend
    rw [endsAt] at hend
    show ([] : List (List α)).flatten = A.drop i
    rw [show i = A.length from hend, List.drop_length]
    rfl
  | cons s rest ih =>
    intro i j hc hend
    obtain ⟨h1, h2, h3, h4, h5⟩ := hc
    rw [endsAt] at hend
    have hsb : s.Aend ≤ A.length := by
      have := (contig_endsAt_ge rest s.Aend s.Bend h5).1
      omega
    show (if s.Aend ≤ A.length then sliceList A s.Astart s.Aend
        else []) ++
      (rest.map (fun s =>
        if s.Aend ≤ A.length then sliceList A s.Astart s.Aend
        else [])).flatten = A.drop i
    rw [if_pos hsb, ih s.Aend s.Bend h5 hend, sliceList, h1]
    exact drop_take_drop A i s.Aend (by omega)

theorem slices_join_B (B : List α) :
    ∀ (l : List Span) (i j : Nat), Contig i j l →
      (endsAt i j l).2 = B.length →
      (l.map (fun s =>
        if s.Bend ≤ B.length then sliceList B s.Bstart s.Bend
        else [])).flatten = B.drop j := by
  intro l
  induction l with
  | nil =>
    intro i j _ hend
    rw [endsAt] at hend
    show ([] : List (List α)).flatten = B.drop j
    rw [show j = B.length from hend, List.drop_length]
    rfl
  | cons s rest ih =>
    intro i j hc hend
    obtain ⟨h1, h2, h3, h4, h5⟩ := hc
    rw [endsAt] at hend
    have hsb : s.Bend ≤ B.length := by
      have := (contig_endsAt_ge rest s.Aend s.Bend h5).2
      omega
    show (if s.Bend ≤ B.length then sliceList B s.Bstart s.Bend
        else []) ++
      (rest.map (fun s =>
        if s.Bend ≤ B.length then sliceList B s.Bstart s.Bend
        else [])).flatten = B.drop j
    rw [if_pos hsb, ih s.Aend s.Bend h5 hend, sliceList, h2]
    exact drop_take_drop B j s.Bend (by omega)

/-! ## C1, C2, C10 -/

/-- The spans of the direct engine, with the full normalizer facts. -/
theorem spans_spec [DecidableEq α] [Inhabited α] (a b : List α) :
    Contig 0 0 (Diff.new a b).spans ∧
    endsAt 0 0 (Diff.new a b).spans = (a.length, b.length) ∧
    ∀ s ∈ (Diff.new a b).spans, SpanShapeB a b beqOf s := by
  obtain ⟨hch, hmem, hea, heb⟩ := matchesOf_spec a b (Diff.new a b).lk
    beqOf (lk_sound_direct a b)
  obtain ⟨hc, he, hs⟩ := spansAux_spec a b beqOf
    (matchesOf a b (Diff.new a b).lk beqOf) 0 0 hch
    (fun m hm => (hmem m hm).1)
  refine ⟨hc, ?_, hs⟩
  show endsAt 0 0 (spansAux 0 0 (matchesOf a b (Diff.new a b).lk beqOf)) =
    (a.length, b.length)
  rw [he, hea, heb]

/-- C1: the spans of Spans() partition both inputs in lockstep: each
span starts exactly at the running cursors and advances them, the walk
ends exactly at (len(A), len(B)), and concatenating the Aitems of all
blocks of Blocks() yields A while concatenating the Bitems yields B. -/
theorem C1_partition {α : Type} [DecidableEq α] [Inhabited α]
    (a b : List α) :
    Contig 0 0 (Diff.new a b).spans ∧
    endsAt 0 0 (Diff.new a b).spans = (a.length, b.length) ∧
    ((Diff.new a b).blocks.map Block.Aitems).flatten = a ∧
    ((Diff.new a b).blocks.map Block.Bitems).flatten = b := by
  obtain ⟨hc, he, -⟩ := spans_spec a b
  refine ⟨hc, he, ?_, ?_⟩
  · rw [Diff.blocks, List.map_map]
    have := slices_join_A a (Diff.new a b).spans 0 0 hc (by rw [he])
    rw [List.drop_zero] at this
    exact this
  · rw [Diff.blocks, List.map_map]
    have := slices_join_B b (Diff.new a b).spans 0 0 hc (by rw [he])
    rw [List.drop_zero] at this
    exact this

theorem spanShapeB_to_eq [DecidableEq α] [Inhabited α] (A B : List α)
    (s : Span) (h : SpanShapeB A B beqOf s) : SpanShape A B s := by
  obtain ⟨tag, a1, a2, b1, b2⟩ := s
  cases tag
  · obtain ⟨h1, h2, h3⟩ := h
    refine ⟨h1, h2, ?_⟩
    intro t ht
    have := h3 t ht
    simpa [beqOf] using this
  · exact h
  · exact h
  · exact h

/-- C2: every span of Spans() satisfies the per-tag shape invariant:
Insert spans have an empty A-range, Delete spans an empty B-range,
Replace spans two non-empty ranges, and Equal spans two ranges of equal
positive length covering element-wise equal slices. -/
theorem C2_span_shape {α : Type} [DecidableEq α] [Inhabited α]
    (a b : List α) : ∀ s ∈ (Diff.new a b).spans, SpanShape a b s := by
  intro s hs
  exact spanShapeB_to_eq a b s ((spans_spec a b).2.2 s hs)

/-- Witness for C2 at a concrete span of a concrete diff. -/
theorem C2_span_shape_witness :
    SpanShape [1, 2] [2, 3] ⟨.Equal, 1, 2, 0, 1⟩ :=
  C2_span_shape [1, 2] [2, 3] ⟨.Equal, 1, 2, 0, 1⟩ (by decide)

/-- C10: on every window inside both sequences, longestMatch (in either
variant) returns a match wholly contained in the window with the
extension loops never crossing its boundaries; and no span of Spans()
has an end index exceeding the corresponding sequence length. -/
theorem C10_window_containment {α : Type} [DecidableEq α] [Inhabited α]
    (a b : List α) (keyfn : α → String) (q : Quad)
    (h1 : q.Astart ≤ q.Aend) (h2 : q.Aend ≤ a.length)
    (h3 : q.Bstart ≤ q.Bend) (h4 : q.Bend ≤ b.length) :
    (q.Astart ≤ (longestMatch a b (Diff.new a b).lk beqOf q).astart ∧
     (longestMatch a b (Diff.new a b).lk beqOf q).astart +
       (longestMatch a b (Diff.new a b).lk beqOf q).length ≤ q.Aend ∧
     q.Bstart ≤ (longestMatch a b (Diff.new a b).lk beqOf q).bstart ∧
     (longestMatch a b (Diff.new a b).lk beqOf q).bstart +
       (longestMatch a b (Diff.new a b).lk beqOf q).length ≤ q.Bend) ∧
    (q.Astart ≤ (longestMatch a b (DiffKeyFn.new a b keyfn).lk
        (DiffKeyFn.new a b keyfn).eqv q).astart ∧
     (longestMatch a b (DiffKeyFn.new a b keyfn).lk
        (DiffKeyFn.new a b keyfn).eqv q).astart +
       (longestMatch a b (DiffKeyFn.new a b keyfn).lk
        (DiffKeyFn.new a b keyfn).eqv q).length ≤ q.Aend ∧
     q.Bstart ≤ (longestMatch a b (DiffKeyFn.new a b keyfn).lk
        (DiffKeyFn.new a b keyfn).eqv q).bstart ∧
     (longestMatch a b (DiffKeyFn.new a b keyfn).lk
        (DiffKeyFn.new a b keyfn).eqv q).bstart +
       (longestMatch a b (DiffKeyFn.new a b keyfn).lk
        (DiffKeyFn.new a b keyfn).eqv q).length ≤ q.Bend) ∧
    ∀ s ∈ (Diff.new a b).spans, s.Aend ≤ a.length ∧ s.Bend ≤ b.length := by
  refine ⟨?_, ?_, ?_⟩
  · obtain ⟨c1, c2, c3, c4, -⟩ := longestMatch_spec a b (Diff.new a b).lk
      beqOf (lk_sound_direct a b) q h1 h3
    exact ⟨c1, c2, c3, c4⟩
  · obtain ⟨c1, c2, c3, c4, -⟩ := longestMatch_spec a b
      (DiffKeyFn.new a b keyfn).lk (DiffKeyFn.new a b keyfn).eqv
      (lk_sound_keyed a b keyfn) q h1 h3
    exact ⟨c1, c2, c3, c4⟩
  · intro s hs
    obtain ⟨hc, he, -⟩ := spans_spec a b
    have := contig_ends_le (Diff.new a b).spans 0 0 hc s hs
    rw [he] at this
    exact this

/-- Witness for C10 at a concrete window. -/
theorem C10_window_containment_witness :
    (0 ≤ (longestMatch [1, 2] [2, 3] (Diff.new [1, 2] [2, 3]).lk beqOf
        ⟨0, 2, 0, 2⟩).astart ∧
     (longestMatch [1, 2] [2, 3] (Diff.new [1, 2] [2, 3]).lk beqOf
        ⟨0, 2, 0, 2⟩).astart +
       (longestMatch [1, 2] [2, 3] (Diff.new [1, 2] [2, 3]).lk beqOf
        ⟨0, 2, 0, 2⟩).length ≤ 2 ∧
     0 ≤ (longestMatch [1, 2] [2, 3] (Diff.new [1, 2] [2, 3]).lk beqOf
        ⟨0, 2, 0, 2⟩).bstart ∧
     (longestMatch [1, 2] [2, 3] (Diff.new [1, 2] [2, 3]).lk beqOf
        ⟨0, 2, 0, 2⟩).bstart +
       (longestMatch [1, 2] [2, 3] (Diff.new [1, 2] [2, 3]).lk beqOf
        ⟨0, 2, 0, 2⟩).length ≤ 2) ∧
    (0 ≤ (longestMatch [1, 2] [2, 3]
        (DiffKeyFn.new [1, 2] [2, 3] (fun n => toString n)).lk
        (DiffKeyFn.new [1, 2] [2, 3] (fun n => toString n)).eqv
        ⟨0, 2, 0, 2⟩).astart ∧
     (longestMatch [1, 2] [2, 3]
        (DiffKeyFn.new [1, 2] [2, 3] (fun n => toString n)).lk
        (DiffKeyFn.new [1, 2] [2, 3] (fun n => toString n)).eqv
        ⟨0, 2, 0, 2⟩).astart +
       (longestMatch [1, 2] [2, 3]
        (DiffKeyFn.new [1, 2] [2, 3] (fun n => toString n)).lk
        (DiffKeyFn.new [1, 2] [2, 3] (fun n => toString n)).eqv
        ⟨0, 2, 0, 2⟩).length ≤ 2 ∧
     0 ≤ (longestMatch [1, 2] [2, 3]
        (DiffKeyFn.new [1, 2] [2, 3] (fun n => toString n)).lk
        (DiffKeyFn.new [1, 2] [2, 3] (fun n => toString n)).eqv
        ⟨0, 2, 0, 2⟩).bstart ∧
     (longestMatch [1, 2] [2, 3]
        (DiffKeyFn.new [1, 2] [2, 3] (fun n => toString n)).lk
        (DiffKeyFn.new [1, 2] [2, 3] (fun n => toString n)).eqv
        ⟨0, 2, 0, 2⟩).bstart +
       (longestMatch [1, 2] [2, 3]
        (DiffKeyFn.new [1, 2] [2, 3] (fun n => toString n)).lk
        (DiffKeyFn.new [1, 2] [2, 3] (fun n => toString n)).eqv
        ⟨0, 2, 0, 2⟩).length ≤ 2) ∧
    ∀ s ∈ (Diff.new [1, 2] [2, 3]).spans,
      s.Aend ≤ ([1, 2] : List Nat).length ∧
      s.Bend ≤ ([2, 3] : List Nat).length :=
  C10_window_containment [1, 2] [2, 3] (fun n => toString n) ⟨0, 2, 0, 2⟩
    (by decide) (by decide) (by decide) (by decide)

/-! ## C4: empty inputs -/

theorem scanRows_none [Inhabited α] (A : List α)
    (b2j : α → Option (List Nat)) (h : ∀ x, b2j x = none)
    (bStart bEnd : Nat) :
    ∀ (count i : Nat) (j2 : Nat → Nat) (best : Match),
      scanRows A b2j bStart bEnd count i j2 best = best := by
  intro count
  induction count with
  | zero => intro i j2 best; rfl
  | succ c ih =>
    intro i j2 best
    rw [scanRows]
    simp only [h, Option.getD_none, innerLoop]
    exact ih (i + 1) _ best

theorem extendFwd_bend_zero [Inhabited α] (A B : List α)
    (eqv : α → α → Bool) (aEnd bi bj : Nat) :
    ∀ (fuel size : Nat), extendFwd A B eqv aEnd 0 bi bj fuel size = size := by
  intro fuel
  induction fuel with
  | zero => intro size; rfl
  | succ f ih =>
    intro size
    rw [extendFwd, if_neg]
    intro hcon
    have := hcon.2.1
    omega

/-- C4: diffing an empty A against a non-empty B yields exactly one
Insert span covering all of B; diffing a non-empty A against an empty B
yields exactly one Delete span covering all of A; diffing two empty
sequences yields no spans. -/
theorem C4_empty_boundaries {α : Type} [DecidableEq α] [Inhabited α] :
    (∀ b : List α, b ≠ [] →
      (Diff.new ([] : List α) b).spans = [⟨.Insert, 0, 0, 0, b.length⟩]) ∧
    (∀ a : List α, a ≠ [] →
      (Diff.new a ([] : List α)).spans = [⟨.Delete, 0, a.length, 0, 0⟩]) ∧
    (Diff.new ([] : List α) ([] : List α)).spans = [] := by
  refine ⟨?_, ?_, rfl⟩
  · intro b hb
    have h1 : longestMatch ([] : List α) b (Diff.new ([] : List α) b).lk
        beqOf ⟨0, 0, 0, b.length⟩ = ⟨0, 0, 0⟩ := rfl
    have h2 : runQueue ([] : List α) b (Diff.new ([] : List α) b).lk
        beqOf (([] : List α).length + b.length + 1)
        [⟨0, ([] : List α).length, 0, b.length⟩] [] = some [] := by
      simp only [List.length_nil]
      rw [runQueue, h1]
      rw [if_pos rfl]
      rw [runQueue]
    have h3 : matchesOf ([] : List α) b (Diff.new ([] : List α) b).lk
        beqOf = [⟨0, b.length, 0⟩] := by
      rw [matchesOf, h2]
      simp [sortMatches, coalesceAux]
    show spansForMatches (matchesOf ([] : List α) b
      (Diff.new ([] : List α) b).lk beqOf) = _
    rw [h3]
    cases b with
    | nil => exact absurd rfl hb
    | cons x bs =>
      rw [spansForMatches, spansAux]
      simp [spansAux]
  · intro a ha
    have hlk : ∀ x, (Diff.new a ([] : List α)).lk x = none := fun x => rfl
    have h1 : longestMatch a ([] : List α) (Diff.new a ([] : List α)).lk
        beqOf ⟨0, a.length, 0, 0⟩ = ⟨0, 0, 0⟩ := by
      simp only [longestMatch]
      rw [scanRows_none a _ hlk]
      rw [show (extendBack a ([] : List α) beqOf 0 0 0 0 0) = ⟨0, 0, 0⟩
        from rfl]
      rw [extendFwd_bend_zero]
    have h2 : runQueue a ([] : List α) (Diff.new a ([] : List α)).lk
        beqOf (a.length + ([] : List α).length + 1)
        [⟨0, a.length, 0, ([] : List α).length⟩] [] = some [] := by
      simp only [List.length_nil]
      rw [runQueue, h1]
      rw [if_pos rfl]
      rw [runQueue]
    have h3 : matchesOf a ([] : List α) (Diff.new a ([] : List α)).lk
        beqOf = [⟨a.length, 0, 0⟩] := by
      rw [matchesOf, h2]
      simp [sortMatches, coalesceAux]
    show spansForMatches (matchesOf a ([] : List α)
      (Diff.new a ([] : List α)).lk beqOf) = _
    rw [h3]
    cases a with
    | nil => exact absurd rfl ha
    | cons x as =>
      rw [spansForMatches, spansAux]
      simp [spansAux]

/-- Witness for C4 at concrete inputs. -/
theorem C4_empty_boundaries_witness :
    (Diff.new ([] : List Nat) [5, 6]).spans = [⟨.Insert, 0, 0, 0, 2⟩] ∧
    (Diff.new [5, 6] ([] : List Nat)).spans = [⟨.Delete, 0, 2, 0, 0⟩] ∧
    (Diff.new ([] : List Nat) ([] : List Nat)).spans = [] :=
  ⟨(C4_empty_boundaries.1 [5, 6] (by decide)).trans (by decide),
   (C4_empty_boundaries.2.1 [5, 6] (by decide)).trans (by decide),
   C4_empty_boundaries.2.2⟩

/-! ## C3: diffing a sequence against itself -/

theorem innerLoop_append (i bStart bEnd : Nat) (j2 : Nat → Nat) :
    ∀ (l1 l2 : List Nat) (newJ2 : Nat → Nat) (best : Match),
      (∀ j ∈ l1, j < bEnd) →
      innerLoop i bStart bEnd j2 (l1 ++ l2) newJ2 best =
        innerLoop i bStart bEnd j2 l2
          (innerLoop i bStart bEnd j2 l1 newJ2 best).1
          (innerLoop i bStart bEnd j2 l1 newJ2 best).2 := by
  intro l1
  induction l1 with
  | nil => intro l2 newJ2 best _; rfl
  | cons j rest ih =>
    intro l2 newJ2 best hlt
    have hrest : ∀ j' ∈ rest, j' < bEnd :=
      fun j' h => hlt j' (List.mem_cons_of_mem j h)
    have hj : j < bEnd := hlt j (List.mem_cons_self j rest)
    simp only [List.cons_append, innerLoop]
    by_cases h1 : j < bStart
    · simp only [if_pos h1]
      exact ih l2 newJ2 best hrest
    · simp only [if_neg h1, if_neg (by omega : ¬ bEnd ≤ j)]
      exact ih l2 _ _ hrest

theorem innerLoop_steady (i bEnd : Nat) (j2 : Nat → Nat) :
    ∀ (l : List Nat) (newJ2 : Nat → Nat) (best : Match),
      (∀ j ∈ l, j < bEnd) →
      (∀ j ∈ l, look j2 j + 1 ≤ best.length) →
      (innerLoop i 0 bEnd j2 l newJ2 best).2 = best ∧
      ∀ j', (innerLoop i 0 bEnd j2 l newJ2 best).1 j' = newJ2 j' ∨
        ((innerLoop i 0 bEnd j2 l newJ2 best).1 j' = look j2 j' + 1 ∧
          j' ∈ l) := by
  intro l
  induction l with
  | nil => intro newJ2 best _ _; exact ⟨rfl, fun j' => Or.inl rfl⟩
  | cons j rest ih =>
    intro newJ2 best hlt hk
    have hj : j < bEnd := hlt j (List.mem_cons_self j rest)
    have hkj : look j2 j + 1 ≤ best.length :=
      hk j (List.mem_cons_self j rest)
    simp only [innerLoop, if_neg (by omega : ¬ j < 0),
      if_neg (by omega : ¬ bEnd ≤ j),
      if_neg (by omega : ¬ best.length < look j2 j + 1)]
    obtain ⟨ih1, ih2⟩ := ih
      (fun j' => if j' = j then look j2 j + 1 else newJ2 j') best
      (fun j' h => hlt j' (List.mem_cons_of_mem j h))
      (fun j' h => hk j' (List.mem_cons_of_mem j h))
    refine ⟨ih1, ?_⟩
    intro j'
    rcases ih2 j' with h | h
    · by_cases hjj : j' = j
      · subst hjj
        rw [h, if_pos rfl]
        exact Or.inr ⟨rfl, List.mem_cons_self j' rest⟩
      · rw [h, if_neg hjj]
        exact Or.inl rfl
    · exact Or.inr ⟨h.1, List.mem_cons_of_mem j h.2⟩

/-- dseq in one step: 0 on an index miss, the previous diagonal value
plus one on a hit. -/
theorem dseq_eq [Inhabited α] (a : List α) (b2j : α → Option (List Nat))
    (i : Nat) :
    dseq a b2j i = if candOf a b2j i = [] then 0
      else dprev a b2j i + 1 := by
  cases i with
  | zero => simp [dseq, dprev]
  | succ r => simp [dseq, dprev]

/-- One row of the identity scan, for an arbitrary (possibly pruned)
index map of a against itself: the best match stays diagonal and comes
to dominate the diagonal reference value dseq of every processed row,
while the new rolling row is bounded columnwise by dseq, is dominated
by its own diagonal entry, and that diagonal entry is exactly the dseq
value of this row. -/
theorem innerLoopIdent [DecidableEq α] [Inhabited α] (a : List α)
    (b2j : α → Option (List Nat))
    (hb : ∀ x l, b2j x = some l → l = indexesOf a x)
    (i : Nat) (hi : i < a.length) (j2 : Nat → Nat) (best : Match)
    (hCB : ∀ j, j2 j ≤ dseq a b2j j)
    (hRD : ∀ c, j2 c ≤ look j2 i)
    (hDG : look j2 i = dprev a b2j i)
    (hdb : best.astart = best.bstart)
    (hDM : ∀ r, r < i → dseq a b2j r ≤ best.length)
    (st : (Nat → Nat) × Match)
    (hst : st = innerLoop i 0 a.length j2 (candOf a b2j i)
      (fun _ => 0) best) :
    st.2.astart = st.2.bstart ∧
    (∀ r, r < i + 1 → dseq a b2j r ≤ st.2.length) ∧
    (∀ j, st.1 j ≤ dseq a b2j j) ∧
    (∀ c, st.1 c ≤ look st.1 (i + 1)) ∧
    look st.1 (i + 1) = dprev a b2j (i + 1) := by
  subst hst
  by_cases hc : candOf a b2j i = []
  · rw [hc]
    refine ⟨hdb, ?_, ?_, ?_, ?_⟩
    · intro r hr
      by_cases hri : r < i
      · exact hDM r hri
      · have hri2 : r = i := by omega
        subst hri2
        rw [dseq_eq, if_pos hc]
        exact Nat.zero_le _
    · intro j
      exact Nat.zero_le _
    · intro c
      exact Nat.zero_le _
    · show look (fun _ => (0 : Nat)) (i + 1) = dprev a b2j (i + 1)
      rw [look, if_neg (by omega : ¬ i + 1 = 0), dprev,
        if_neg (by omega : ¬ i + 1 = 0), Nat.add_sub_cancel, dseq_eq,
        if_pos hc]
  · obtain ⟨l, hbl⟩ : ∃ l, b2j (a.getI i) = some l := by
      cases hxx : b2j (a.getI i) with
      | none =>
        exfalso
        apply hc
        simp [candOf, hxx]
      | some l => exact ⟨l, rfl⟩
    have hcand : candOf a b2j i = indexesOf a (a.getI i) := by
      rw [candOf, hbl, Option.getD_some]
      exact hb _ _ hbl
    have hmem : i ∈ candOf a b2j i := by
      rw [hcand]
      have := keyIndexesFrom_mem_of id (a.getI i) a 0 i hi rfl
      simpa [indexesOf] using this
    have hlt : ∀ j ∈ candOf a b2j i, j < a.length := by
      intro j hj
      rw [hcand] at hj
      have := (mem_keyIndexesFrom id (a.getI i) a 0 j hj).2.1
      simpa using this
    have hgetI : ∀ j ∈ candOf a b2j i, a.getI j = a.getI i := by
      intro j hj
      rw [hcand] at hj
      have := (mem_keyIndexesFrom id (a.getI i) a 0 j hj).2.2
      simpa using this
    have hactJ : ∀ j ∈ candOf a b2j i, candOf a b2j j ≠ [] := by
      intro j hj
      have h1 : candOf a b2j j = candOf a b2j i := by
        rw [candOf, candOf, hgetI j hj]
      rw [h1]
      exact hc
    have hkv : ∀ j ∈ candOf a b2j i, look j2 j + 1 ≤ dseq a b2j j := by
      intro j hj
      rw [dseq_eq, if_neg (hactJ j hj)]
      have hlp : look j2 j ≤ dprev a b2j j := by
        rw [look, dprev]
        by_cases hj0 : j = 0
        · rw [if_pos hj0, if_pos hj0]
        · rw [if_neg hj0, if_neg hj0]
          exact hCB (j - 1)
      omega
    have hdsI : dseq a b2j i = dprev a b2j i + 1 := by
      rw [dseq_eq, if_neg hc]
    have hRDl : ∀ j, look j2 j ≤ look j2 i := by
      intro j
      rw [look]
      by_cases hj0 : j = 0
      · rw [if_pos hj0]
        exact Nat.zero_le _
      · rw [if_neg hj0]
        exact hRD (j - 1)
    obtain ⟨l1, l2, hsplit⟩ := List.append_of_mem hmem
    have hsort : List.Pairwise (· < ·) (l1 ++ i :: l2) := by
      rw [← hsplit, hcand]
      exact keyIndexesFrom_sorted id (a.getI i) a 0
    obtain ⟨hp1, hp2, hcross⟩ := List.pairwise_append.mp hsort
    have hl1lt : ∀ j ∈ l1, j < i :=
      fun j hj => hcross j hj i (List.mem_cons_self i l2)
    have hl2gt : ∀ j ∈ l2, i < j := (List.pairwise_cons.mp hp2).1
    have hl1end : ∀ j ∈ l1, j < a.length := by
      intro j hj
      refine hlt j ?_
      rw [hsplit]
      exact List.mem_append.mpr (Or.inl hj)
    have hl2end : ∀ j ∈ l2, j < a.length := by
      intro j hj
      refine hlt j ?_
      rw [hsplit]
      exact List.mem_append.mpr (Or.inr (List.mem_cons_of_mem i hj))
    rw [hsplit, innerLoop_append i 0 a.length j2 l1 (i :: l2) _ _ hl1end]
    obtain ⟨hs1, hs2⟩ := innerLoop_steady i a.length j2 l1 (fun _ => 0)
      best hl1end
      (by
        intro j hj
        have h1 := hkv j (by
          rw [hsplit]
          exact List.mem_append.mpr (Or.inl hj))
        have h2 := hDM j (hl1lt j hj)
        omega)
    rw [hs1]
    set n1 := (innerLoop i 0 a.length j2 l1 (fun _ => 0) best).1
      with hn1
    -- the diagonal step
    rw [innerLoop, if_neg (by omega : ¬ i < 0),
      if_neg (by omega : ¬ a.length ≤ i)]
    dsimp only
    have hfin : ∀ (best2 : Match) (st2 : (Nat → Nat) × Match),
        st2 = innerLoop i 0 a.length j2 l2
          (fun j' => if j' = i then look j2 i + 1 else n1 j') best2 →
        best2.astart = best2.bstart →
        look j2 i + 1 ≤ best2.length →
        best.length ≤ best2.length →
        st2.2.astart = st2.2.bstart ∧
        (∀ r, r < i + 1 → dseq a b2j r ≤ st2.2.length) ∧
        (∀ j, st2.1 j ≤ dseq a b2j j) ∧
        (∀ c, st2.1 c ≤ look st2.1 (i + 1)) ∧
        look st2.1 (i + 1) = dprev a b2j (i + 1) := by
      intro best2 st2 hst2 hdb2 hk2 hmono2
      subst hst2
      obtain ⟨ht1, ht2⟩ := innerLoop_steady i a.length j2 l2
        (fun j' => if j' = i then look j2 i + 1 else n1 j') best2 hl2end
        (by
          intro j hj
          have := hRDl j
          omega)
      set st1 := (innerLoop i 0 a.length j2 l2
        (fun j' => if j' = i then look j2 i + 1 else n1 j') best2).1
        with hst1
      have hchar : ∀ j', st1 j' = 0 ∨
          (st1 j' = look j2 j' + 1 ∧ j' ∈ candOf a b2j i) := by
        intro j'
        rcases ht2 j' with h | h
        · by_cases hji : j' = i
          · subst hji
            rw [h, if_pos rfl]
            exact Or.inr ⟨rfl, hmem⟩
          · rw [h, if_neg hji]
            rcases hs2 j' with h2 | h2
            · exact Or.inl h2
            · refine Or.inr ⟨h2.1, ?_⟩
              rw [hsplit]
              exact List.mem_append.mpr (Or.inl h2.2)
        · refine Or.inr ⟨h.1, ?_⟩
          rw [hsplit]
          exact List.mem_append.mpr (Or.inr (List.mem_cons_of_mem i h.2))
      have hdiagval : st1 i = look j2 i + 1 := by
        rcases ht2 i with h | h
        · rw [h, if_pos rfl]
        · exact h.1
      have hlook1 : look st1 (i + 1) = look j2 i + 1 := by
        rw [look, if_neg (by omega : ¬ i + 1 = 0), Nat.add_sub_cancel]
        exact hdiagval
      refine ⟨?_, ?_, ?_, ?_, ?_⟩
      · rw [ht1]
        exact hdb2
      · intro r hr
        rw [ht1]
        by_cases hri : r < i
        · have := hDM r hri
          omega
        · have hri2 : r = i := by omega
          subst hri2
          rw [hdsI, ← hDG]
          exact hk2
      · intro j
        rcases hchar j with h | h
        · rw [h]
          exact Nat.zero_le _
        · rw [h.1]
          exact hkv j h.2
      · intro c
        rw [hlook1]
        rcases hchar c with h | h
        · rw [h]
          exact Nat.zero_le _
        · rw [h.1]
          have := hRDl c
          omega
      · rw [hlook1, dprev, if_neg (by omega : ¬ i + 1 = 0),
          Nat.add_sub_cancel, hdsI, hDG]
    by_cases hup : best.length < look j2 i + 1
    · rw [if_pos hup]
      exact hfin _ _ rfl rfl (le_refl _)
        (by
          show best.length ≤ look j2 i + 1
          omega)
    · rw [if_neg hup]
      exact hfin _ _ rfl hdb (by omega) (le_refl _)

/-- The identity scan of a against itself, for an arbitrary (possibly
pruned) index map: the best match is always diagonal. -/
theorem scanRowsIdent [DecidableEq α] [Inhabited α] (a : List α)
    (b2j : α → Option (List Nat))
    (hb : ∀ x l, b2j x = some l → l = indexesOf a x) :
    ∀ (count i : Nat) (j2 : Nat → Nat) (best : Match),
      i + count = a.length →
      (∀ j, j2 j ≤ dseq a b2j j) →
      (∀ c, j2 c ≤ look j2 i) →
      look j2 i = dprev a b2j i →
      best.astart = best.bstart →
      (∀ r, r < i → dseq a b2j r ≤ best.length) →
      (scanRows a b2j 0 a.length count i j2 best).astart =
        (scanRows a b2j 0 a.length count i j2 best).bstart := by
  intro count
  induction count with
  | zero =>
    intro i j2 best _ _ _ _ hdb _
    simpa [scanRows] using hdb
  | succ c ih =>
    intro i j2 best hin hCB hRD hDG hdb hDM
    rw [scanRows]
    obtain ⟨c1, c2, c3, c4, c5⟩ := innerLoopIdent a b2j hb i (by omega)
      j2 best hCB hRD hDG hdb hDM
      (innerLoop i 0 a.length j2 ((b2j (a.getI i)).getD [])
        (fun _ => 0) best) rfl
    exact ih (i + 1) _ _ (by omega) c3 c4 c5 c1 c2

/-- On the identity inputs, the backward extension grows any diagonal
match all the way back to position 0: its guard compares elements
directly, so pruning of the index cannot stop it. -/
theorem extendBack_diag [DecidableEq α] [Inhabited α] (a : List α) :
    ∀ d s : Nat, extendBack a a beqOf 0 0 d d s = ⟨0, 0, s + d⟩ := by
  intro d
  induction d with
  | zero => intro s; rfl
  | succ d ih =>
    intro s
    have hguard : 0 < d + 1 ∧ 0 < d + 1 ∧
        beqOf (a.getI d) (a.getI (d + 1 - 1)) = true :=
      ⟨by omega, by omega, by simp [beqOf]⟩
    rw [extendBack, if_pos hguard, Nat.add_sub_cancel, ih (s + 1)]
    have harith : s + 1 + d = s + (d + 1) := by omega
    rw [harith]

/-- On the identity inputs, the forward extension started at position 0
with the remaining fuel reaches the full length: its guard also
compares elements directly. -/
theorem extendFwd_diag [DecidableEq α] [Inhabited α] (a : List α) :
    ∀ fuel size : Nat, size + fuel = a.length →
      extendFwd a a beqOf a.length a.length 0 0 fuel size = a.length := by
  intro fuel
  induction fuel with
  | zero =>
    intro size h
    rw [extendFwd]
    omega
  | succ f ih =>
    intro size h
    have hguard : 0 + size < a.length ∧ 0 + size < a.length ∧
        beqOf (a.getI (0 + size)) (a.getI (0 + size)) = true :=
      ⟨by omega, by omega, by simp [beqOf]⟩
    rw [extendFwd, if_pos hguard]
    exact ih (size + 1) (by omega)

/-- Counterexample to C3 as stated: for the empty sequence, diffing it
against itself yields no spans at all, not one Equal span covering the
(empty) whole range. -/
theorem C3_identity_counterexample :
    ¬ ∃ s : Span, (Diff.new ([] : List Nat) ([] : List Nat)).spans = [s] ∧
      s.tag = Tag.Equal := by
  rintro ⟨s, hs, -⟩
  have hnil : (Diff.new ([] : List Nat) ([] : List Nat)).spans = [] := rfl
  rw [hnil] at hs
  cases hs

/-- C3 (amended): for every non-empty sequence A, diffing A against
itself yields exactly one Equal span covering the whole range on both
sides; the empty sequence instead yields no spans.  Pruning of the
index cannot break this: the scan keeps its best match on the main
diagonal, and the two extension loops compare elements directly, so
they grow any diagonal match to the full range. -/
theorem C3_identity_amended {α : Type} [DecidableEq α] [Inhabited α]
    (a : List α) (ha : a ≠ []) :
    (Diff.new a a).spans = [⟨.Equal, 0, a.length, 0, a.length⟩] := by
  have hn1 : 0 < a.length := List.length_pos.mpr ha
  have hne : a.length ≠ 0 := by omega
  have hb : ∀ (x : α) (l : List Nat), (Diff.new a a).lk x = some l →
      l = indexesOf a x :=
    fun x l h => alookup_chainBseq_some a x l h
  have hdg : (scanRows a (Diff.new a a).lk 0 a.length (a.length - 0) 0
      (fun _ => 0) ⟨0, 0, 0⟩).astart =
      (scanRows a (Diff.new a a).lk 0 a.length (a.length - 0) 0
        (fun _ => 0) ⟨0, 0, 0⟩).bstart :=
    scanRowsIdent a (Diff.new a a).lk hb (a.length - 0) 0 (fun _ => 0)
      ⟨0, 0, 0⟩ (by omega) (fun j => Nat.zero_le _)
      (fun c => Nat.zero_le _)
      (by rw [look, if_pos rfl, dprev, if_pos rfl]) rfl
      (fun r hr => absurd hr (by omega))
  have hinit : BestInv a a beqOf 0 0 a.length 0 ⟨0, 0, 0⟩ := by
    refine ⟨le_refl _, le_refl _, by simp, by simp, ?_⟩
    intro t ht
    simp at ht
  have hscan := scanRows_inv a a (Diff.new a a).lk beqOf 0 0 a.length
    (lk_sound_direct a a) (a.length - 0) 0 (fun _ => 0) ⟨0, 0, 0⟩
    (le_refl 0) (fun j hj => absurd rfl hj) hinit
  obtain ⟨-, -, hble0, -, -⟩ := hscan
  set bst := scanRows a (Diff.new a a).lk 0 a.length (a.length - 0) 0
    (fun _ => 0) ⟨0, 0, 0⟩ with hbst
  have hble : bst.astart + bst.length ≤ a.length := by
    have := hble0
    omega
  have hlm : longestMatch a a (Diff.new a a).lk beqOf
      ⟨0, a.length, 0, a.length⟩ = ⟨0, 0, a.length⟩ := by
    unfold longestMatch
    dsimp only
    rw [← hbst, ← hdg, extendBack_diag]
    dsimp only
    rw [extendFwd_diag a (a.length - (0 + (bst.length + bst.astart)))
      (bst.length + bst.astart) (by omega)]
  have h2 : runQueue a a (Diff.new a a).lk beqOf
      (a.length + a.length + 1) [⟨0, a.length, 0, a.length⟩] [] =
      some [⟨0, 0, a.length⟩] := by
    rw [runQueue, hlm]
    dsimp only
    rw [if_neg hne, if_neg (by omega : ¬((0 : Nat) < 0 ∧ (0 : Nat) < 0)),
      if_neg (by omega :
        ¬(0 + a.length < a.length ∧ 0 + a.length < a.length)),
      runQueue]
    rfl
  have h3 : matchesOf a a (Diff.new a a).lk beqOf =
      [⟨0, 0, a.length⟩, ⟨a.length, a.length, 0⟩] := by
    unfold matchesOf
    rw [h2]
    simp [sortMatches, insertSorted, coalesceAux, hne]
  show spansForMatches (matchesOf a a (Diff.new a a).lk beqOf) = _
  rw [h3]
  simp [spansForMatches, spansAux, hne]

/-- Witness for the amended C3 at a concrete input. -/
theorem C3_identity_amended_witness :
    (Diff.new [4, 5, 6] [4, 5, 6]).spans = [⟨.Equal, 0, 3, 0, 3⟩] :=
  (C3_identity_amended [4, 5, 6] (by decide)).trans (by decide)

end Diff2
